import Mathlib

/-!
# Verification of the docforge core against its specification

Shallow embedding of the docforge repository's core algorithms:

* `pkg/api/nodes.go` — the document node tree: `Union` (the recursive
  merge), `relativePath` and `intersect` over ancestor chains.
* the link validator — `Validate`, `doValidation` and the validated link set.
* `pkg/resourcehandlers/fs/fs.go` — `ReadGitInfo` over a parsed git log.
* `pkg/reactor/github.go` — `GitHubWorker.Work` / `createBlobFromTask`.

Go pointer-mutating code is embedded as state-passing functions, network
and filesystem I/O as explicit oracles, machine integers as `Nat`/`Int`,
and fallible code returns an explicit error component.  The recursive
tree type is a mutual inductive (`Node`/`NodeList`) and the recursive
merge is driven by an explicit fuel argument (the tree `size` provides
sufficient fuel), so every definition is executable by kernel reduction.
-/

namespace Docforge

/-! ## Data model: `api.Node`

The fields of the `Node` struct used by `nodes.go`: `Name`, `Source`,
`Template` (with its `Sources` content selectors), `ContentSelectors`
(a nil-able slice — `Option` models Go's nil slice, since `isDocument`
tests `ContentSelectors != nil`) and the children slice `Nodes`.  The
non-owning `parent` back-reference, `stats` and `sourceLocation` play no
role in the merge algorithm; ancestor chains are passed explicitly to
the path functions that need them. -/

structure ContentSelector where
  source : String
  deriving DecidableEq

structure Template where
  sources : List ContentSelector
  deriving DecidableEq

mutual
inductive Node where
  | mk (name : String) (source : String) (template : Option Template)
       (contentSelectors : Option (List ContentSelector)) (nodes : NodeList)
inductive NodeList where
  | nil
  | cons (head : Node) (tail : NodeList)
end

namespace Node

def name : Node → String
  | mk n _ _ _ _ => n

def source : Node → String
  | mk _ s _ _ _ => s

def template : Node → Option Template
  | mk _ _ t _ _ => t

def contentSelectors : Node → Option (List ContentSelector)
  | mk _ _ _ c _ => c

def nodes : Node → NodeList
  | mk _ _ _ _ ns => ns

/-- Model of `func (n *Node) isDocument() bool`:
`return n.Source != "" || n.Template != nil || n.ContentSelectors != nil` -/
def isDocument (n : Node) : Bool :=
  n.source != "" || n.template.isSome || n.contentSelectors.isSome

/-- Rebuild a node with a new children list (models in-place mutation of
`n.Nodes`). -/
def withNodes : Node → NodeList → Node
  | mk n s t c _, ns => mk n s t c ns

end Node

namespace NodeList

/-- The children slice as a plain Lean list. -/
def toList : NodeList → List Node
  | nil => []
  | cons h t => h :: t.toList

def length : NodeList → ℕ
  | nil => 0
  | cons _ t => t.length + 1

/-- Lookup `children[i]`, with a default for the (never exercised) out-of-range
case. -/
def getD : NodeList → ℕ → Node → Node
  | nil, _, d => d
  | cons h _, 0, _ => h
  | cons _ t, i + 1, d => t.getD i d

/-- In-place update of `children[i]` (models mutation through the
`*Node` pointer stored both in the slice and in the `nodesByName` map). -/
def set : NodeList → ℕ → Node → NodeList
  | nil, _, _ => nil
  | cons _ t, 0, v => cons v t
  | cons h t, i + 1, v => cons h (t.set i v)

/-- Append step `n.Nodes = append(n.Nodes, node)`. -/
def push : NodeList → Node → NodeList
  | nil, v => cons v nil
  | cons h t, v => cons h (t.push v)

/-- The names of the children, in order. -/
def names : NodeList → List String
  | nil => []
  | cons h t => h.name :: t.names

end NodeList

mutual
/-- Structural size of a node; used as fuel for the merge recursion. -/
def Node.size : Node → ℕ
  | .mk _ _ _ _ ch => ch.size + 1
def NodeList.size : NodeList → ℕ
  | .nil => 0
  | .cons h t => h.size + t.size + 1
end

/-! ### Deep equality

`reflect.DeepEqual(existingNode, node)` compares the two pointed-to
trees structurally; it is embedded as structural equality of the
embedded `Node` values. -/

mutual
def Node.deepEqual : Node → Node → Bool
  | .mk n1 s1 t1 c1 ch1, .mk n2 s2 t2 c2 ch2 =>
    n1 == n2 && s1 == s2 && t1 == t2 && c1 == c2 && NodeList.deepEqualL ch1 ch2
def NodeList.deepEqualL : NodeList → NodeList → Bool
  | .nil, .nil => true
  | .cons h1 t1, .cons h2 t2 => Node.deepEqual h1 h2 && NodeList.deepEqualL t1 t2
  | _, _ => false
end

/-- The zero value used as the (never exercised) default for slice
indexing. -/
def nilNode : Node := .mk "" "" none none .nil

/-- The `nodesByName` map of `Union`: Go builds
`for _, node := range n.Nodes { nodesByName[node.Name] = node }`, so a
name maps to the pointer of the *last* initial child bearing it.  The
embedding represents that pointer as the child's index in the slice
(appends never shift existing indices). -/
def lastIdxOf (name : String) : NodeList → Option ℕ
  | .nil => none
  | .cons h t =>
    match lastIdxOf name t with
    | some j => some (j + 1)
    | none => if h.name == name then some 0 else none

/-! ### `Union` — `pkg/api/nodes.go` lines 253–297

```go
func (n *Node) Union(nodes []*Node) error {
    if n.isDocument() { return fmt.Errorf("not a container node %s/%s", ...) }
    nodesByName := make(map[string]*Node)
    for _, node := range n.Nodes { nodesByName[node.Name] = node }
    for _, node := range nodes {
        if existingNode, ok := nodesByName[node.Name]; ok {
            if reflect.DeepEqual(existingNode, node) { continue }
            if node.isDocument() {
                // warn; existing node wins
            } else if len(node.Nodes) > 0 {
                if err := existingNode.Union(node.Nodes); err != nil { return err }
            }
        } else {
            n.Nodes = append(n.Nodes, node)
        }
    }
    return nil
}
```

The embedding threads the mutated children slice explicitly and returns
it together with the error.  The error value is modelled as the
offending non-container receiver node itself (the Go error message
`"not a container node <path>/<name>"` names exactly that node; the
path prefix comes from parent pointers which play no other role here).
Note the map is built once from the *initial* children and is never
extended by the appends, while the recursive merge mutates the mapped
child in place — the index-based map models this aliasing exactly. -/

/-- One pass of `Union`'s `for _, node := range nodes` loop.
`inner` is the recursive `existingNode.Union(node.Nodes)` call (the
caller passes the merge at one fuel step less); `orig` is the children
slice the `nodesByName` map was built from; `children` is the current
(mutated) slice. -/
def unionLoopF (inner : Node → NodeList → Node × Option Node)
    (orig : NodeList) : NodeList → NodeList → NodeList × Option Node
  | children, .nil => (children, none)
  | children, .cons x rest =>
    match lastIdxOf x.name orig with
    | some i =>
      let e := children.getD i nilNode
      if Node.deepEqual e x then
        unionLoopF inner orig children rest
      else if x.isDocument then
        -- document collision: warn only, existing node wins
        unionLoopF inner orig children rest
      else if x.nodes.length > 0 then
        match inner e x.nodes with
        | (e', some d) => (children.set i e', some d)
        | (e', none) => unionLoopF inner orig (children.set i e') rest
      else
        unionLoopF inner orig children rest
    | none => unionLoopF inner orig (children.push x) rest

/-- Variant of `Union` with explicit fuel (the fuel only bounds the nesting depth of
the recursion; `Node.union` below supplies a sufficient amount). -/
def unionGoF : ℕ → Node → NodeList → Node × Option Node
  | 0, n, _ => (n, none)
  | fuel + 1, n, ns =>
    if n.isDocument then (n, some n)
    else
      let r := unionLoopF (unionGoF fuel) n.nodes n.nodes ns
      (n.withNodes r.1, r.2)

/-- Model of `func (n *Node) Union(nodes []*Node) error`, returning the merged
node together with the error (`some d` = "not a container node" error
for document receiver `d`). -/
def Node.union (n : Node) (ns : NodeList) : Node × Option Node :=
  unionGoF (ns.size + 1) n ns

/-! ## Ancestor chains: `relativePath` — `pkg/api/nodes.go` lines 56–128

`relativePath` inspects only the two nodes' `Parents()` chains and
pointer identity along them.  A tree node is embedded as a `PNode`
(identity plus its `Name`), and the chains `from.Parents()` /
`to.Parents()` (root first, excluding the node itself, exactly what
`Parents()` returns) are passed explicitly. -/

structure PNode where
  id : ℕ
  name : String
  deriving DecidableEq

/-- Model of `func intersect(a, b []*Node) []*Node` — the elements of `b` (in
order) that occur in `a`, comparing by pointer identity. -/
def intersect (a b : List PNode) : List PNode :=
  b.filter fun v => a.contains v

/-- Model of `func relativePath(from, to *Node) string` with the two `Parents()`
chains supplied explicitly. -/
def relativePath (fro tgt : PNode) (froParents toParents : List PNode) : String :=
  if fro = tgt then fro.name
  else
    let fromPathToRoot := froParents ++ [fro]
    let toPathToRoot := toParents ++ [tgt]
    let inter := intersect fromPathToRoot toPathToRoot
    if inter.length > 0 then
      if inter.getLast? = some fro then
        -- to is descendant
        let tp := toPathToRoot.drop (inter.length - 1)
        String.intercalate "/" ((tp.map PNode.name).set 0 ".")
      else if inter.getLast? = some tgt then
        -- to is ancestor
        let fp := fromPathToRoot.drop inter.length
        String.intercalate "/" (fp.map (fun _ => "..") ++ [tgt.name])
      else
        -- to is on another branch
        let fp := fromPathToRoot.drop inter.length
        let s := if fp.length > 1 then (fp.drop 1).map (fun _ => "..") else ["."]
        let tp := toPathToRoot.drop inter.length
        String.intercalate "/" (s ++ tp.map PNode.name)
    else
      -- the nodes are in different trees
      let s := if fromPathToRoot.length > 1 then
          (fromPathToRoot.drop 1).map (fun _ => "..") else ["."]
      String.intercalate "/" (s ++ toPathToRoot.map PNode.name)

/-! ## Link validator

`Validate` / `doValidation` / `linkSet`.  The HTTP client is modelled by
response oracles indexed by the number of calls already issued on the
same request (`respond k` = outcome of the `k+1`-th `client.Do`; `none`
= transport-level error).  A response carries its status code and the
parsed integer value of its `Retry-After` header (`none` = header absent
or not an integer).  `rand k` feeds `rand.Intn(k+1)` via `% (k+1)`.
Which concrete client is selected (a resource handler's own client or
the default one) does not change the shape of the computation and is
absorbed into the oracles. -/

structure HttpResponse where
  status : ℕ
  retryAfter : Option Int
  deriving DecidableEq

/-- Constant `intervals := []int{1, 5, 10, 20}`. -/
def intervalsGo : List Int := [1, 5, 10, 20]

/-- Outcome of `doValidation`: the returned response (`none` = transport
error), the sequence of back-off sleeps (seconds) performed, and how
many `client.Do` calls were issued. -/
structure DoResult where
  response : Option HttpResponse
  sleeps : List Int
  calls : ℕ
  deriving DecidableEq

/-- The retry loop of `doValidation`:
`for resp.StatusCode == http.StatusTooManyRequests && attempts < len(intervals)-1`.
`remaining` is `len(intervals)-1 - attempts`, making the recursion
structural; both are passed to keep the sleep computation verbatim. -/
def dvLoop (respond : ℕ → Option HttpResponse) (rand : ℕ → ℕ) :
    ℕ → ℕ → HttpResponse → List Int → ℕ → DoResult
  | 0, _, resp, sleeps, calls => ⟨some resp, sleeps, calls⟩
  | remaining + 1, attempts, resp, sleeps, calls =>
    if resp.status = 429 then
      let base : Int := intervalsGo.getD attempts 0 + (rand attempts % (attempts + 1) : ℕ)
      -- check for Retry-After header and overwrite sleep time
      -- (support only value in seconds <= 5 min)
      let sleep : Int :=
        match resp.retryAfter with
        | some a => if a ≤ 5 * 60 then a else base
        | none => base
      match respond calls with
      | none => ⟨none, sleeps ++ [sleep], calls + 1⟩
      | some r => dvLoop respond rand remaining (attempts + 1) r (sleeps ++ [sleep]) (calls + 1)
    else ⟨some resp, sleeps, calls⟩

/-- Model of `func doValidation(req *http.Request, client httpclient.Client) (*http.Response, error)` -/
def doValidation (respond : ℕ → Option HttpResponse) (rand : ℕ → ℕ) : DoResult :=
  match respond 0 with
  | none => ⟨none, [], 1⟩
  | some r => dvLoop respond rand (intervalsGo.length - 1) 0 r [] 1

/-- Substring search on character lists (kernel-executable). -/
def subListOf (pat : List Char) : List Char → Bool
  | [] => pat.isEmpty
  | c :: rest => pat.isPrefixOf (c :: rest) || subListOf pat rest

/-- Model of `strings.Contains(host, pat)` for a non-empty constant pattern. -/
def containsSub (s pat : String) : Bool :=
  subListOf pat.data s.data

/-- Model of `net/url.URL` — the fields `Validate` reads. `host` is the
`host[:port]` form; `Hostname()` strips the port. -/
structure URL where
  scheme : String
  host : String
  path : String
  query : String
  fragment : String
  user : String
  deriving DecidableEq

/-- Model of `LinkURL.Hostname()` (net/url `stripPort`: everything before the
first `:`; the bracketed IPv6 form does not occur in the validator's
denylist comparisons). -/
def hostnameOf (host : String) : String :=
  ⟨host.data.takeWhile (· ≠ ':')⟩

/-- The denylist test of `Validate`:
`host == "localhost" || host == "127.0.0.1" || host == "1.2.3.4" || strings.Contains(host, "foo.bar")` -/
def sampleHost (h : String) : Bool :=
  h == "localhost" || h == "127.0.0.1" || h == "1.2.3.4" || containsSub h "foo.bar"

/-- The normalized ("unified") URL: scheme + host + path only — the
rendering `(&url.URL{Scheme, Host, Path}).String()` is injectively
represented by the triple itself. -/
abbrev LinkKey := String × String × String

def unifiedKey (u : URL) : LinkKey := (u.scheme, u.host, u.path)

/-- Outcome of one `Validate` call: the returned error, the validated
set afterwards (the `linkSet`, as a list of keys), and how many
`client.Do` calls the HEAD and GET probes issued. -/
structure ValidateResult where
  err : Option String
  validated : List LinkKey
  headCalls : ℕ
  getCalls : ℕ
  deriving DecidableEq

/-- Model of `func (v *ValidatorWorker) Validate(ctx, LinkURL, LinkDestination, ContentSourcePath) error`.
`headReqOk` / `getReqOk` model whether `http.NewRequestWithContext`
succeeds for the respective method (its only failure mode). -/
def validate (headRespond getRespond : ℕ → Option HttpResponse) (rand : ℕ → ℕ)
    (headReqOk getReqOk : Bool) (validated : List LinkKey) (u : URL) : ValidateResult :=
  -- ignore sample hosts e.g. localhost
  if sampleHost (hostnameOf u.host) then ⟨none, validated, 0, 0⟩
  else
    -- unify links destination by excluding query, fragment & user info
    let unifiedURL := unifiedKey u
    if unifiedURL ∈ validated then ⟨none, validated, 0, 0⟩
    else if !headReqOk then
      ⟨some "failed to prepare HEAD validation request", validated, 0, 0⟩
    else
      let hres := doValidation headRespond rand
      match hres.response with
      | none =>
        -- transport error: warn only, then fall through to validated.add
        ⟨none, unifiedURL :: validated, hres.calls, 0⟩
      | some r =>
        if r.status ≥ 400 && r.status ≠ 403 && r.status ≠ 401 then
          -- on error status code different from authorization errors, retry GET
          if !getReqOk then
            ⟨some "failed to prepare GET validation request", validated, hres.calls, 0⟩
          else
            let gres := doValidation getRespond rand
            -- any GET outcome is at most a warning, then validated.add
            ⟨none, unifiedURL :: validated, hres.calls, gres.calls⟩
        else ⟨none, unifiedURL :: validated, hres.calls, 0⟩

/-! ## `ReadGitInfo` — `pkg/resourcehandlers/fs/fs.go` lines 122–174

`gitLog` hands back the parsed `git log` records in git's output order
(most recent commit first), so the earliest commit is the *last*
element.  `ReadGitInfo` post-processes that list purely; the embedding
takes the parsed list as input.  The `(nil, nil)` result for an empty
log is `none`. -/

structure GitLogEntry where
  sha : String
  author : String
  date : String
  message : String
  email : String
  name : String
  deriving DecidableEq

structure GitUser where
  name : String
  email : String
  deriving DecidableEq

structure GitInfo where
  publishDate : String
  lastModifiedDate : String
  author : GitUser
  contributors : List GitUser
  deriving DecidableEq

/-- ASCII whitespace (the characters `strings.TrimSpace` strips in the
names at hand). -/
def isSpaceChar (c : Char) : Bool :=
  c == ' ' || c == '\t' || c == '\n' || c == '\r'

/-- Model of `strings.TrimSpace`. -/
def trimChars (l : List Char) : List Char :=
  ((l.dropWhile isSpaceChar).reverse.dropWhile isSpaceChar).reverse

/-- Cleaning step `logEntry.Name = strings.TrimSpace(strings.Split(logEntry.Name, "<")[0])` -/
def cleanName (s : String) : String :=
  ⟨trimChars (s.data.takeWhile (· ≠ '<'))⟩

def emptyLogEntry : GitLogEntry := ⟨"", "", "", "", "", ""⟩

/-- One record after the name-normalization loop of `ReadGitInfo`. -/
def cleanEntry (e : GitLogEntry) : GitLogEntry :=
  { e with name := cleanName e.name }

/-- Model of `func (fs *fsHandler) ReadGitInfo(ctx, uri)` after `gitLog` parsing
(the JSON re-serialization at the end is the identity on this data). -/
def readGitInfo (log : List GitLogEntry) : Option GitInfo :=
  if log.isEmpty then none
  else
    let log' := log.map cleanEntry
    let earliest := log'.getLastD emptyLogEntry
    let latest := log'.headD emptyLogEntry
    some
      { publishDate := earliest.date
        lastModifiedDate := latest.date
        author := ⟨earliest.name, earliest.email⟩
        contributors :=
          (log'.filter fun e => e.email ≠ earliest.email).map fun e =>
            (⟨e.name, e.email⟩ : GitUser) }

/-! ## `GitHubWorker.Work` — `pkg/reactor/github.go` lines 39–69

I/O is modelled by oracles: `fetch` is `client.Git.GetBlobRaw` (either a
transport error or a status code plus blob), `dirExists` is the
`os.Stat` existence probe, `mkdirFails`/`writeFails` give the error, if
any, of `os.MkdirAll` / `ioutil.WriteFile`.  The effect trace records
the externally observable actions. -/

structure GitHubTask where
  parentDir : String
  owner : String
  repository : String
  entrySHA : String
  entryPath : String
  deriving DecidableEq

/-- A task value handed to `Work`: either an actual `*GitHubTask` or any
other value (for which the type assertion `task.(*GitHubTask)` fails). -/
inductive ReactorTask where
  | github : GitHubTask → ReactorTask
  | other : ReactorTask
  deriving DecidableEq

structure WorkerError where
  message : String
  deriving DecidableEq

inductive FetchOutcome where
  | transportErr (msg : String)
  | ok (status : ℕ) (blob : String)
  deriving DecidableEq

inductive FsEffect where
  | fetchedBlob (owner repo sha : String)
  | madeDirs (dir : String)
  | wroteFile (path : String) (blob : String)
  deriving DecidableEq

/-- Model of `filepath.Join(t.parentDir, t.entryPath)` (path cleaning is the
identity on the simple paths considered here). -/
def joinPath (a b : String) : String := a ++ "/" ++ b

/-- Model of `filepath.Dir` — drop the last path segment. -/
def dirOf (p : String) : String :=
  ⟨((p.data.reverse.dropWhile (· ≠ '/')).drop 1).reverse⟩

/-- Model of `func createBlobFromTask(ctx, client, t) error` with its effect
trace. -/
def createBlobFromTask (fetch : String → String → String → FetchOutcome)
    (dirExists : String → Bool) (mkdirFails writeFails : String → Option String)
    (t : GitHubTask) : Option String × List FsEffect :=
  let eff0 := [FsEffect.fetchedBlob t.owner t.repository t.entrySHA]
  match fetch t.owner t.repository t.entrySHA with
  | .transportErr msg => (some msg, eff0)
  | .ok status blob =>
    if status ≠ 200 then
      (some ("not 200 status code returned, but " ++ toString status ++
        ". Failed to get file tree"), eff0)
    else
      let filePath := joinPath t.parentDir t.entryPath
      let parents := dirOf filePath
      if dirExists parents then
        match writeFails filePath with
        | some m => (some m, eff0)
        | none => (none, eff0 ++ [.wroteFile filePath blob])
      else
        match mkdirFails parents with
        | some m => (some m, eff0)
        | none =>
          match writeFails filePath with
          | some m => (some m, eff0 ++ [.madeDirs parents])
          | none => (none, eff0 ++ [.madeDirs parents, .wroteFile filePath blob])

/-- Model of `func (b *GitHubWorker) Work(ctx context.Context, task interface\x7b\x7d) *WorkerError`. -/
def work (fetch : String → String → String → FetchOutcome)
    (dirExists : String → Bool) (mkdirFails writeFails : String → Option String) :
    ReactorTask → Option WorkerError × List FsEffect
  | .github t =>
    match createBlobFromTask fetch dirExists mkdirFails writeFails t with
    | (some m, effs) => (some ⟨m⟩, effs)
    | (none, effs) => (none, effs)
  | .other => (none, [])

/-! ## Auxiliary specification vocabulary -/

/-- Two nodes agree on everything except (possibly) their children: the
node's "content fields" `Name`, `Source`, `Template`, `ContentSelectors`. -/
def contentEq (a b : Node) : Prop :=
  a.name = b.name ∧ a.source = b.source ∧ a.template = b.template ∧
    a.contentSelectors = b.contentSelectors

/-- Every node of the tree is a container (no document node anywhere). -/
inductive ContainerTree : Node → Prop where
  | intro (n : Node) : n.isDocument = false →
      (∀ c ∈ n.nodes.toList, ContainerTree c) → ContainerTree n

/-- At every level of the tree, sibling names are pairwise distinct. -/
inductive NodupTree : Node → Prop where
  | intro (n : Node) : (NodeList.names n.nodes).Nodup →
      (∀ c ∈ n.nodes.toList, NodupTree c) → NodupTree n

/-- Variant of `lastIdxOf` at the level of name lists (the map depends only on the
children's names). -/
def lastIdxOfStr (nm : String) : List String → Option ℕ
  | [] => none
  | h :: t =>
    match lastIdxOfStr nm t with
    | some j => some (j + 1)
    | none => if h == nm then some 0 else none

/-- The sleep `doValidation` performs for one 429 retry: the computed
base delay (interval plus jitter), unless a `Retry-After` value of at
most five minutes overrides it. -/
def retrySleep (ra : Option Int) (base : Int) : Int :=
  match ra with
  | some a => if a ≤ 5 * 60 then a else base
  | none => base

/-- Shorthand for a document node (a `Source` and nothing else). -/
def docNode (nm src : String) : Node := .mk nm src none none .nil

/-- Shorthand for a container node. -/
def contNode (nm : String) (ch : NodeList) : Node := .mk nm "" none none ch

/-- Concrete merge input: a container `"a"` holding one document. -/
def cexExisting : Node := contNode "a" (.cons (docNode "x" "sx") .nil)

/-- Concrete target: a root container holding `cexExisting`. -/
def cexTarget : Node := contNode "" (.cons cexExisting .nil)

/-- Concrete incoming node: a different container also named `"a"`. -/
def cexIncoming : Node := contNode "a" (.cons (docNode "y" "sy") .nil)

/-- Two structurally different incoming containers that share the name
`"a"` (exercising the stale `nodesByName` map). -/
def cexDupIncoming : NodeList :=
  .cons (contNode "a" (.cons (docNode "x" "sx") .nil))
    (.cons (contNode "a" (.cons (docNode "y" "sy") .nil)) .nil)

/-- An empty root container. -/
def emptyRoot : Node := contNode "" .nil

/-- First merge of the duplicate-named incoming pair. -/
def cexOnce : Node × Option Node := emptyRoot.union cexDupIncoming

/-- Second, repeated merge of the same incoming pair. -/
def cexTwice : Node × Option Node := cexOnce.1.union cexDupIncoming

/-- A concrete commit log, newest first, in which the non-author email
`b@x` appears on two records. -/
def cexGitLog : List GitLogEntry :=
  [⟨"s1", "a1", "d1", "m1", "b@x", "Bob <b@x>"⟩,
   ⟨"s2", "a2", "d2", "m2", "b@x", "Bob"⟩,
   ⟨"s3", "a3", "d3", "m3", "a@x", "Al"⟩]

end Docforge

namespace Docforge

/-! # Infrastructure lemmas -/

@[simp] theorem Node.name_mk (n s t c ns) : (Node.mk n s t c ns).name = n := rfl

@[simp] theorem Node.source_mk (n s t c ns) : (Node.mk n s t c ns).source = s := rfl

@[simp] theorem Node.template_mk (n s t c ns) : (Node.mk n s t c ns).template = t := rfl

@[simp] theorem Node.contentSelectors_mk (n s t c ns) :
    (Node.mk n s t c ns).contentSelectors = c := rfl

@[simp] theorem Node.nodes_mk (n s t c ns) : (Node.mk n s t c ns).nodes = ns := rfl

@[simp] theorem Node.withNodes_mk (n s t c ns ns') :
    (Node.mk n s t c ns).withNodes ns' = Node.mk n s t c ns' := rfl

@[simp] theorem Node.name_withNodes (n : Node) (ns : NodeList) :
    (n.withNodes ns).name = n.name := by cases n <;> rfl

@[simp] theorem Node.nodes_withNodes (n : Node) (ns : NodeList) :
    (n.withNodes ns).nodes = ns := by cases n <;> rfl

@[simp] theorem Node.isDocument_withNodes (n : Node) (ns : NodeList) :
    (n.withNodes ns).isDocument = n.isDocument := by cases n <;> rfl

theorem Node.size_mk (n s t c ns) : (Node.mk n s t c ns).size = ns.size + 1 := by
  simp [Node.size]

theorem NodeList.size_cons (h : Node) (t : NodeList) :
    (NodeList.cons h t).size = h.size + t.size + 1 := by
  simp [NodeList.size]

theorem Node.nodes_size_lt (n : Node) : n.nodes.size < n.size := by
  cases n with
  | mk nm s t c ch => simp [Node.size]

/-- Induction along the spine of a `NodeList` (the heads are not
recursed into), replacing the mutual eliminator. -/
@[induction_eliminator]
theorem NodeList.spineInduction {motive : NodeList → Prop} (nil : motive .nil)
    (cons : ∀ h t, motive t → motive (.cons h t)) : ∀ l, motive l
  | .nil => nil
  | .cons h t => cons h t (NodeList.spineInduction nil cons t)

theorem NodeList.size_lt_of_mem {x : Node} {l : NodeList} (h : x ∈ l.toList) :
    x.size < l.size := by
  induction l with
  | nil => simp [NodeList.toList] at h
  | cons hd tl ih =>
    simp [NodeList.toList] at h
    rcases h with h | h
    · subst h; simp [NodeList.size]; omega
    · have := ih h; simp [NodeList.size]; omega

/-! ### Deep equality decides structural equality -/

theorem deepEqual_iff_aux : ∀ k : ℕ,
    (∀ a b : Node, a.size ≤ k → (a.deepEqual b = true ↔ a = b)) ∧
    (∀ l1 l2 : NodeList, l1.size ≤ k → (l1.deepEqualL l2 = true ↔ l1 = l2)) := by
  intro k
  induction k with
  | zero =>
    constructor
    · rintro ⟨n1, s1, t1, c1, ch1⟩ b h
      rw [Node.size_mk] at h
      omega
    · intro l1 l2 h
      cases l1 with
      | nil =>
        cases l2 with
        | nil => simp [NodeList.deepEqualL]
        | cons b bs => simp [NodeList.deepEqualL]
      | cons a as => rw [NodeList.size_cons] at h; omega
  | succ k ih =>
    constructor
    · rintro ⟨n1, s1, t1, c1, ch1⟩ ⟨n2, s2, t2, c2, ch2⟩ h
      rw [Node.size_mk] at h
      have hch : ch1.size ≤ k := by omega
      simp only [Node.deepEqual, Bool.and_eq_true, beq_iff_eq, Node.mk.injEq]
      rw [ih.2 ch1 ch2 hch]
      tauto
    · intro l1 l2 h
      cases l1 with
      | nil =>
        cases l2 with
        | nil => simp [NodeList.deepEqualL]
        | cons b bs => simp [NodeList.deepEqualL]
      | cons a as =>
        cases l2 with
        | nil => simp [NodeList.deepEqualL]
        | cons b bs =>
          rw [NodeList.size_cons] at h
          have ha : a.size ≤ k := by omega
          have has : as.size ≤ k := by omega
          simp only [NodeList.deepEqualL, Bool.and_eq_true, NodeList.cons.injEq]
          rw [ih.1 a b ha, ih.2 as bs has]
  
theorem Node.deepEqual_iff (a b : Node) : a.deepEqual b = true ↔ a = b :=
  (deepEqual_iff_aux a.size).1 a b le_rfl

theorem NodeList.deepEqualL_iff (l1 l2 : NodeList) :
    l1.deepEqualL l2 = true ↔ l1 = l2 :=
  (deepEqual_iff_aux l1.size).2 l1 l2 le_rfl

instance : DecidableEq Node := fun a b =>
  decidable_of_bool (a.deepEqual b) (Node.deepEqual_iff a b)

instance : DecidableEq NodeList := fun a b =>
  decidable_of_bool (a.deepEqualL b) (NodeList.deepEqualL_iff a b)

@[simp] theorem Node.deepEqual_self (a : Node) : a.deepEqual a = true :=
  (Node.deepEqual_iff a a).mpr rfl

theorem Node.deepEqual_eq_false {a b : Node} (h : a ≠ b) : a.deepEqual b = false := by
  rcases hd : a.deepEqual b with _ | _
  · rfl
  · exact absurd ((Node.deepEqual_iff a b).mp hd) h

/-! ### `contentEq` basics -/

theorem contentEq_refl (a : Node) : contentEq a a := ⟨rfl, rfl, rfl, rfl⟩

theorem contentEq_trans {a b c : Node} (h1 : contentEq a b) (h2 : contentEq b c) :
    contentEq a c := by
  obtain ⟨h1a, h1b, h1c, h1d⟩ := h1
  obtain ⟨h2a, h2b, h2c, h2d⟩ := h2
  exact ⟨h1a.trans h2a, h1b.trans h2b, h1c.trans h2c, h1d.trans h2d⟩

theorem contentEq_isDocument {a b : Node} (h : contentEq a b) :
    a.isDocument = b.isDocument := by
  obtain ⟨-, hs, ht, hc⟩ := h
  simp [Node.isDocument, hs, ht, hc]

theorem contentEq_withNodes (n : Node) (ns : NodeList) :
    contentEq (n.withNodes ns) n := by
  cases n with
  | mk nm s t c ch => exact ⟨rfl, rfl, rfl, rfl⟩

end Docforge

namespace Docforge

/-! ### `NodeList` slice lemmas -/

@[simp] theorem NodeList.toList_nil : (NodeList.nil).toList = [] := rfl

@[simp] theorem NodeList.toList_cons (h : Node) (t : NodeList) :
    (NodeList.cons h t).toList = h :: t.toList := rfl

@[simp] theorem NodeList.length_toList (l : NodeList) : l.toList.length = l.length := by
  induction l with
  | nil => rfl
  | cons hd tl ih => simp [NodeList.length, ih]

@[simp] theorem NodeList.names_nil : (NodeList.nil).names = [] := rfl

@[simp] theorem NodeList.names_cons (h : Node) (t : NodeList) :
    (NodeList.cons h t).names = h.name :: t.names := rfl

@[simp] theorem NodeList.length_names (l : NodeList) : l.names.length = l.length := by
  induction l with
  | nil => rfl
  | cons hd tl ih => simp [NodeList.length, ih]

@[simp] theorem NodeList.length_set (l : NodeList) (i : ℕ) (v : Node) :
    (l.set i v).length = l.length := by
  induction l generalizing i with
  | nil => rfl
  | cons hd tl ih =>
    cases i with
    | zero => simp [NodeList.set, NodeList.length]
    | succ j => simp [NodeList.set, NodeList.length, ih]

@[simp] theorem NodeList.length_push (l : NodeList) (v : Node) :
    (l.push v).length = l.length + 1 := by
  induction l with
  | nil => rfl
  | cons hd tl ih => simp [NodeList.push, NodeList.length, ih]

@[simp] theorem NodeList.getD_names (l : NodeList) (j : ℕ) :
    l.names.getD j "" = (l.getD j nilNode).name := by
  induction l generalizing j with
  | nil => cases j <;> rfl
  | cons hd tl ih =>
    cases j with
    | zero => rfl
    | succ k => simpa [NodeList.getD] using ih k

theorem NodeList.getD_ge {l : NodeList} {j : ℕ} (h : l.length ≤ j) (d : Node) :
    l.getD j d = d := by
  induction l generalizing j with
  | nil => cases j <;> rfl
  | cons hd tl ih =>
    cases j with
    | zero => simp [NodeList.length] at h
    | succ k =>
      simp only [NodeList.length] at h
      exact ih (by omega)

theorem NodeList.names_set (l : NodeList) (i : ℕ) (v : Node) :
    (l.set i v).names = l.names.set i v.name := by
  induction l generalizing i with
  | nil => rfl
  | cons hd tl ih =>
    cases i with
    | zero => simp [NodeList.set]
    | succ j => simp [NodeList.set, ih]

theorem NodeList.names_push (l : NodeList) (v : Node) :
    (l.push v).names = l.names ++ [v.name] := by
  induction l with
  | nil => rfl
  | cons hd tl ih => simp [NodeList.push, ih]

theorem NodeList.getD_set_self {l : NodeList} {i : ℕ} (h : i < l.length)
    (v d : Node) : (l.set i v).getD i d = v := by
  induction l generalizing i with
  | nil => simp [NodeList.length] at h
  | cons hd tl ih =>
    cases i with
    | zero => rfl
    | succ j =>
      simp only [NodeList.length] at h
      exact ih (by omega)

theorem NodeList.getD_set_ne {i j : ℕ} (hij : i ≠ j) (l : NodeList)
    (v d : Node) : (l.set i v).getD j d = l.getD j d := by
  induction l generalizing i j with
  | nil => rfl
  | cons hd tl ih =>
    cases i with
    | zero =>
      cases j with
      | zero => exact absurd rfl hij
      | succ k => rfl
    | succ i' =>
      cases j with
      | zero => rfl
      | succ k => exact ih (by omega)

theorem NodeList.getD_push_lt {l : NodeList} {j : ℕ} (h : j < l.length)
    (v d : Node) : (l.push v).getD j d = l.getD j d := by
  induction l generalizing j with
  | nil => simp [NodeList.length] at h
  | cons hd tl ih =>
    cases j with
    | zero => rfl
    | succ k =>
      simp only [NodeList.length] at h
      exact ih (by omega)

theorem NodeList.getD_push_self (l : NodeList) (v d : Node) :
    (l.push v).getD l.length d = v := by
  induction l with
  | nil => rfl
  | cons hd tl ih => simpa [NodeList.push, NodeList.length, NodeList.getD] using ih

theorem NodeList.set_getD_self {l : NodeList} {i : ℕ} (h : i < l.length) (d : Node) :
    l.set i (l.getD i d) = l := by
  induction l generalizing i with
  | nil => rfl
  | cons hd tl ih =>
    cases i with
    | zero => rfl
    | succ j =>
      simp only [NodeList.length] at h
      simp [NodeList.set, NodeList.getD, ih (show j < tl.length by omega)]

theorem NodeList.set_set (l : NodeList) (i : ℕ) (v w : Node) :
    (l.set i v).set i w = l.set i w := by
  induction l generalizing i with
  | nil => rfl
  | cons hd tl ih =>
    cases i with
    | zero => rfl
    | succ j => simp [NodeList.set, ih]

theorem NodeList.getD_mem {l : NodeList} {i : ℕ} (h : i < l.length) (d : Node) :
    l.getD i d ∈ l.toList := by
  induction l generalizing i with
  | nil => simp [NodeList.length] at h
  | cons hd tl ih =>
    cases i with
    | zero => simp [NodeList.getD]
    | succ j =>
      simp only [NodeList.length] at h
      simp [NodeList.getD, ih (show j < tl.length by omega)]

theorem NodeList.mem_set {c v : Node} {l : NodeList} {i : ℕ}
    (h : c ∈ (l.set i v).toList) : c = v ∨ c ∈ l.toList := by
  induction l generalizing i with
  | nil => simp [NodeList.set] at h
  | cons hd tl ih =>
    cases i with
    | zero =>
      simp only [NodeList.set, NodeList.toList_cons, List.mem_cons] at h ⊢
      tauto
    | succ j =>
      simp only [NodeList.set, NodeList.toList_cons, List.mem_cons] at h ⊢
      rcases h with h | h
      · tauto
      · rcases ih h with h' | h' <;> tauto

theorem NodeList.mem_push {c v : Node} {l : NodeList} :
    c ∈ (l.push v).toList ↔ c ∈ l.toList ∨ c = v := by
  induction l with
  | nil => simp [NodeList.push]
  | cons hd tl ih =>
    simp only [NodeList.push, NodeList.toList_cons, List.mem_cons, ih]
    tauto

theorem NodeList.exists_getD_of_mem {x : Node} {l : NodeList} (h : x ∈ l.toList) :
    ∃ i, i < l.length ∧ l.getD i nilNode = x := by
  induction l with
  | nil => simp at h
  | cons hd tl ih =>
    simp only [NodeList.toList_cons, List.mem_cons] at h
    rcases h with h | h
    · exact ⟨0, by simp [NodeList.length], h.symm⟩
    · obtain ⟨i, hi, hg⟩ := ih h
      exact ⟨i + 1, by simp [NodeList.length]; omega, hg⟩

end Docforge

namespace Docforge

/-! ### `nodesByName` lookup lemmas -/

theorem lastIdxOf_eq_str (nm : String) (l : NodeList) :
    lastIdxOf nm l = lastIdxOfStr nm l.names := by
  induction l with
  | nil => rfl
  | cons hd tl ih => simp only [lastIdxOf, NodeList.names_cons, lastIdxOfStr, ih]

theorem lastIdxOfStr_lt {nm : String} : ∀ {A : List String} {i : ℕ},
    lastIdxOfStr nm A = some i → i < A.length := by
  intro A
  induction A with
  | nil => intro i h; simp [lastIdxOfStr] at h
  | cons a t ih =>
    intro i h
    simp only [lastIdxOfStr] at h
    rcases ht : lastIdxOfStr nm t with _ | j
    · rw [ht] at h
      rcases ha : (a == nm) with _ | _ <;> rw [ha] at h <;> simp at h
      subst h; simp
    · rw [ht] at h
      simp at h
      have := ih ht
      simp
      omega

theorem lastIdxOfStr_getD {nm : String} : ∀ {A : List String} {i : ℕ},
    lastIdxOfStr nm A = some i → A.getD i "" = nm := by
  intro A
  induction A with
  | nil => intro i h; simp [lastIdxOfStr] at h
  | cons a t ih =>
    intro i h
    simp only [lastIdxOfStr] at h
    rcases ht : lastIdxOfStr nm t with _ | j
    · rw [ht] at h
      rcases ha : (a == nm) with _ | _ <;> rw [ha] at h <;> simp at h
      subst h
      simpa using ha
    · rw [ht] at h
      simp at h
      subst h
      simpa using ih ht

theorem lastIdxOfStr_none {nm : String} : ∀ {A : List String},
    lastIdxOfStr nm A = none ↔ nm ∉ A := by
  intro A
  induction A with
  | nil => simp [lastIdxOfStr]
  | cons a t ih =>
    simp only [lastIdxOfStr, List.mem_cons]
    rcases ht : lastIdxOfStr nm t with _ | j
    · rcases ha : (a == nm) with _ | _
      · simp only [beq_eq_false_iff_ne] at ha
        simp [ht.symm ▸ ih, ha]
        tauto
      · simp only [beq_iff_eq] at ha
        simp [ha]
    · have : nm ∈ t := by
        have hg := lastIdxOfStr_getD ht
        have hlt := lastIdxOfStr_lt ht
        rw [List.getD_eq_getElem t "" hlt] at hg
        rw [← hg]
        exact List.getElem_mem hlt
      simp [this]

theorem lastIdxOfStr_append (nm : String) (A B : List String) :
    lastIdxOfStr nm (A ++ B) =
      match lastIdxOfStr nm B with
      | some j => some (A.length + j)
      | none => lastIdxOfStr nm A := by
  induction A with
  | nil =>
    simp only [List.nil_append, List.length_nil]
    rcases hb : lastIdxOfStr nm B with _ | j <;> simp [lastIdxOfStr, hb]
  | cons a t ih =>
    rcases hb : lastIdxOfStr nm B with _ | j
    · simp only [hb] at ih
      simp only [List.cons_append, lastIdxOfStr, List.append_eq]
      rw [ih]
    · simp only [hb] at ih
      simp only [List.cons_append, lastIdxOfStr, List.append_eq]
      rw [ih]
      simp only [List.length_cons, Option.some.injEq]
      omega

theorem lastIdxOfStr_nodup {A : List String} (hnd : A.Nodup) :
    ∀ {k : ℕ}, k < A.length → lastIdxOfStr (A.getD k "") A = some k := by
  induction A with
  | nil => intro k h; simp at h
  | cons a t ih =>
    intro k h
    rcases List.nodup_cons.mp hnd with ⟨ha, ht⟩
    cases k with
    | zero =>
      have hnone : lastIdxOfStr a t = none := lastIdxOfStr_none.mpr ha
      show lastIdxOfStr a (a :: t) = some 0
      simp [lastIdxOfStr, hnone]
    | succ j =>
      have hj : j < t.length := by simp at h; omega
      have hlast := ih ht hj
      show lastIdxOfStr (t.getD j "") (a :: t) = some (j + 1)
      simp only [lastIdxOfStr, hlast]

theorem take_eq_of_getD : ∀ (A B : List String), A.length ≤ B.length →
    (∀ j, j < A.length → B.getD j "" = A.getD j "") → B.take A.length = A := by
  intro A
  induction A with
  | nil => intro B _ _; simp
  | cons a t ih =>
    intro B hlen hget
    cases B with
    | nil => simp at hlen
    | cons b s =>
      have h0 : b = a := hget 0 (by simp)
      simp only [List.length_cons, List.take_succ_cons]
      rw [h0]
      congr 1
      apply ih s (by simpa using hlen)
      intro j hj
      exact hget (j + 1) (by simpa using hj)

theorem not_mem_of_getD_ne {nm : String} {B : List String}
    (h : ∀ j, j < B.length → B.getD j "" ≠ nm) : nm ∉ B := by
  intro hmem
  obtain ⟨k, hk, he⟩ := List.getElem_of_mem hmem
  exact h k hk (by rw [List.getD_eq_getElem _ _ hk]; exact he)

end Docforge

namespace Docforge

/-! ### Fuel irrelevance for the merge -/

theorem Node.size_eq (n : Node) : n.size = n.nodes.size + 1 := by
  cases n with
  | mk nm s t c ch => simp [Node.size]

theorem NodeList.nodes_size_mem {x : Node} {l : NodeList} (h : x ∈ l.toList) :
    x.nodes.size + 2 ≤ l.size := by
  have h1 := NodeList.size_lt_of_mem h
  have h2 := Node.size_eq x
  omega

theorem unionLoopF_congr {inner1 inner2 : Node → NodeList → Node × Option Node}
    (orig : NodeList) : ∀ (pending children : NodeList),
    (∀ x ∈ pending.toList, ∀ e, inner1 e x.nodes = inner2 e x.nodes) →
    unionLoopF inner1 orig children pending = unionLoopF inner2 orig children pending := by
  intro pending
  induction pending with
  | nil => intro children _; rfl
  | cons x rest ih =>
    intro children hagree
    have hx : ∀ e, inner1 e x.nodes = inner2 e x.nodes :=
      hagree x (by simp)
    have hrest : ∀ y ∈ rest.toList, ∀ e, inner1 e y.nodes = inner2 e y.nodes :=
      fun y hy => hagree y (by simp [hy])
    simp only [unionLoopF]
    rcases hL : lastIdxOf x.name orig with _ | i
    · exact ih _ hrest
    · rcases hde : Node.deepEqual (children.getD i nilNode) x with _ | _
      · rcases hxd : x.isDocument with _ | _
        · by_cases hlen : x.nodes.length > 0
          · simp only [hde, hxd, Bool.false_eq_true, if_false, hlen, if_true]
            rcases hinner : inner2 (children.getD i nilNode) x.nodes with ⟨e', derr⟩
            rw [hx (children.getD i nilNode), hinner]
            rcases derr with _ | d
            · exact ih _ hrest
            · rfl
          · simp only [hde, hxd, Bool.false_eq_true, if_false, hlen]
            exact ih _ hrest
        · simp only [hde, hxd, Bool.false_eq_true, if_false, if_true]
          exact ih _ hrest
      · simp only [hde, if_true]
        exact ih _ hrest

theorem unionGoF_fuel : ∀ (f1 f2 : ℕ) (n : Node) (ns : NodeList),
    ns.size < f1 → ns.size < f2 → unionGoF f1 n ns = unionGoF f2 n ns := by
  intro f1
  induction f1 with
  | zero => intro f2 n ns h1 _; omega
  | succ f1 ih =>
    intro f2 n ns h1 h2
    cases f2 with
    | zero => omega
    | succ f2 =>
      simp only [unionGoF]
      rcases hdoc : n.isDocument with _ | _
      · simp only [Bool.false_eq_true, if_false]
        rw [unionLoopF_congr n.nodes ns n.nodes]
        intro x hx e
        have hb := NodeList.nodes_size_mem hx
        exact ih f2 e x.nodes (by omega) (by omega)
      · simp only [if_true]

/-- The wrapper `Node.union` computes `unionGoF` at any sufficient fuel. -/
theorem Node.union_eq_fuel {f : ℕ} {ns : NodeList} (h : ns.size < f) (n : Node) :
    n.union ns = unionGoF f n ns :=
  unionGoF_fuel (ns.size + 1) f n ns (by omega) h

end Docforge

namespace Docforge

/-! ### What one merge pass does to the children slice -/

theorem lastIdxOf_lt {nm : String} {l : NodeList} {i : ℕ}
    (h : lastIdxOf nm l = some i) : i < l.length := by
  rw [lastIdxOf_eq_str] at h
  have := lastIdxOfStr_lt h
  simpa using this

theorem lastIdxOf_name_getD {nm : String} {l : NodeList} {i : ℕ}
    (h : lastIdxOf nm l = some i) : (l.getD i nilNode).name = nm := by
  rw [lastIdxOf_eq_str] at h
  have := lastIdxOfStr_getD h
  rwa [NodeList.getD_names] at this

theorem unionGoF_contentEq (f : ℕ) (n : Node) (ns : NodeList) :
    contentEq (unionGoF f n ns).1 n := by
  cases f with
  | zero => exact contentEq_refl n
  | succ f =>
    simp only [unionGoF]
    rcases hdoc : n.isDocument with _ | _
    · simp only [Bool.false_eq_true, if_false]
      exact contentEq_withNodes n _
    · simp only [if_true]
      exact contentEq_refl n

/-- Shape of the children slice after one merge pass: existing slots keep
their content fields (the collision zone, below `orig.length`) or are
kept verbatim (the zone the map cannot reach), and every new slot is an
appended element of the incoming list whose name misses the map. -/
theorem unionLoopF_shape {inner : Node → NodeList → Node × Option Node}
    (hinner : ∀ e ys, contentEq (inner e ys).1 e) (orig : NodeList) :
    ∀ (pending children cs : NodeList) (err : Option Node),
    orig.length ≤ children.length →
    unionLoopF inner orig children pending = (cs, err) →
    children.length ≤ cs.length ∧
    (∀ j, j < orig.length →
      contentEq (cs.getD j nilNode) (children.getD j nilNode)) ∧
    (∀ j, orig.length ≤ j → j < children.length →
      cs.getD j nilNode = children.getD j nilNode) ∧
    (∀ j, children.length ≤ j → j < cs.length →
      cs.getD j nilNode ∈ pending.toList ∧
      lastIdxOf (cs.getD j nilNode).name orig = none) := by
  intro pending
  induction pending with
  | nil =>
    intro children cs err hlen heq
    simp only [unionLoopF, Prod.mk.injEq] at heq
    obtain ⟨rfl, rfl⟩ := heq
    refine ⟨le_rfl, fun j _ => contentEq_refl _, fun j _ _ => rfl, fun j h1 h2 => ?_⟩
    omega
  | cons x rest ih =>
    intro children cs err hlen heq
    simp only [unionLoopF] at heq
    rcases hL : lastIdxOf x.name orig with _ | i
    · rw [hL] at heq
      obtain ⟨h1, h2, h3, h4⟩ := ih (children.push x) cs err (by simp; omega) heq
      simp only [NodeList.length_push] at h1 h3 h4
      refine ⟨by omega, ?_, ?_, ?_⟩
      · intro j hj
        have := h2 j hj
        rwa [NodeList.getD_push_lt (by omega)] at this
      · intro j hj1 hj2
        have := h3 j hj1 (by omega)
        rwa [NodeList.getD_push_lt (by omega)] at this
      · intro j hj1 hj2
        rcases Nat.eq_or_lt_of_le hj1 with hj | hj
        · subst hj
          have := h3 children.length (by omega) (by omega)
          rw [NodeList.getD_push_self] at this
          rw [this]
          exact ⟨by simp, hL⟩
        · have := h4 j (by omega) hj2
          exact ⟨by simp [this.1], this.2⟩
    · simp only [hL] at heq
      have hilt : i < orig.length := lastIdxOf_lt hL
      rcases hde : Node.deepEqual (children.getD i nilNode) x with _ | _
      case true =>
        simp only [hde, if_true] at heq
        obtain ⟨h1, h2, h3, h4⟩ := ih children cs err hlen heq
        exact ⟨h1, h2, h3, fun j hj1 hj2 => ⟨by simp [(h4 j hj1 hj2).1], (h4 j hj1 hj2).2⟩⟩
      case false =>
        simp only [hde, Bool.false_eq_true, if_false] at heq
        rcases hxd : x.isDocument with _ | _
        case true =>
          simp only [hxd, if_true] at heq
          obtain ⟨h1, h2, h3, h4⟩ := ih children cs err hlen heq
          exact ⟨h1, h2, h3, fun j hj1 hj2 => ⟨by simp [(h4 j hj1 hj2).1], (h4 j hj1 hj2).2⟩⟩
        case false =>
          simp only [hxd, Bool.false_eq_true, if_false] at heq
          by_cases hxlen : x.nodes.length > 0
          · rw [if_pos hxlen] at heq
            rcases hi : inner (children.getD i nilNode) x.nodes with ⟨e', derr⟩
            rw [hi] at heq
            have hce : contentEq e' (children.getD i nilNode) := by
              have := hinner (children.getD i nilNode) x.nodes
              rwa [hi] at this
            rcases derr with _ | d
            · obtain ⟨h1, h2, h3, h4⟩ := ih (children.set i e') cs err (by simp; omega) heq
              simp only [NodeList.length_set] at h1 h3 h4
              refine ⟨h1, ?_, ?_, ?_⟩
              · intro j hj
                by_cases hij : i = j
                · subst hij
                  have := h2 i hj
                  rw [NodeList.getD_set_self (by omega)] at this
                  exact contentEq_trans this hce
                · have := h2 j hj
                  rwa [NodeList.getD_set_ne hij] at this
              · intro j hj1 hj2
                have hij : i ≠ j := by omega
                have := h3 j hj1 hj2
                rwa [NodeList.getD_set_ne hij] at this
              · intro j hj1 hj2
                have := h4 j hj1 hj2
                exact ⟨by simp [this.1], this.2⟩
            · simp only [Prod.mk.injEq] at heq
              obtain ⟨rfl, rfl⟩ := heq
              refine ⟨by simp, ?_, ?_, ?_⟩
              · intro j hj
                by_cases hij : i = j
                · subst hij
                  rw [NodeList.getD_set_self (by omega)]
                  exact hce
                · rw [NodeList.getD_set_ne hij]
                  exact contentEq_refl _
              · intro j hj1 hj2
                have hij : i ≠ j := by omega
                rw [NodeList.getD_set_ne hij]
              · intro j hj1 hj2
                simp only [NodeList.length_set] at hj2
                omega
          · rw [if_neg hxlen] at heq
            obtain ⟨h1, h2, h3, h4⟩ := ih children cs err hlen heq
            exact ⟨h1, h2, h3, fun j hj1 hj2 => ⟨by simp [(h4 j hj1 hj2).1], (h4 j hj1 hj2).2⟩⟩

/-- A slot no pending element's name maps to is untouched by the pass. -/
theorem unionLoopF_frozen {inner : Node → NodeList → Node × Option Node}
    {orig : NodeList} : ∀ (pending children : NodeList) (i : ℕ), i < children.length →
    (∀ y ∈ pending.toList, lastIdxOf y.name orig ≠ some i) →
    (unionLoopF inner orig children pending).1.getD i nilNode = children.getD i nilNode := by
  intro pending
  induction pending with
  | nil => intro children i _ _; rfl
  | cons x rest ih =>
    intro children i hi hno
    have hnx : lastIdxOf x.name orig ≠ some i := hno x (by simp)
    have hnr : ∀ y ∈ rest.toList, lastIdxOf y.name orig ≠ some i :=
      fun y hy => hno y (by simp [hy])
    simp only [unionLoopF]
    rcases hL : lastIdxOf x.name orig with _ | i'
    · rw [ih (children.push x) i (by simp; omega) hnr]
      exact NodeList.getD_push_lt hi _ _
    · have hii : i' ≠ i := fun h => hnx (h ▸ hL)
      rcases hde : Node.deepEqual (children.getD i' nilNode) x with _ | _
      · rcases hxd : x.isDocument with _ | _
        · by_cases hxlen : x.nodes.length > 0
          · simp only [hde, hxd, Bool.false_eq_true, if_false, hxlen, if_true]
            rcases hi2 : inner (children.getD i' nilNode) x.nodes with ⟨e', derr⟩
            rcases derr with _ | d
            · rw [ih (children.set i' e') i (by simp; omega) hnr]
              exact NodeList.getD_set_ne hii _ _ _
            · exact NodeList.getD_set_ne hii _ _ _
          · simp only [hde, hxd, Bool.false_eq_true, if_false, hxlen]
            exact ih children i hi hnr
        · simp only [hde, hxd, Bool.false_eq_true, if_false, if_true]
          exact ih children i hi hnr
      · simp only [hde, if_true]
        exact ih children i hi hnr

end Docforge

namespace Docforge

/-! ### Errors come exactly from document receivers -/

theorem unionLoopF_err {inner : Node → NodeList → Node × Option Node}
    {orig : NodeList}
    (hinner : ∀ e ys d, (inner e ys).2 = some d → d.isDocument = true) :
    ∀ (pending children : NodeList) (d : Node),
    (unionLoopF inner orig children pending).2 = some d → d.isDocument = true := by
  intro pending
  induction pending with
  | nil => intro children d h; simp [unionLoopF] at h
  | cons x rest ih =>
    intro children d h
    simp only [unionLoopF] at h
    rcases hL : lastIdxOf x.name orig with _ | i
    · rw [hL] at h
      exact ih _ d h
    · simp only [hL] at h
      rcases hde : Node.deepEqual (children.getD i nilNode) x with _ | _
      case true =>
        simp only [hde, if_true] at h
        exact ih _ d h
      case false =>
        simp only [hde, Bool.false_eq_true, if_false] at h
        rcases hxd : x.isDocument with _ | _
        case true =>
          simp only [hxd, if_true] at h
          exact ih _ d h
        case false =>
          simp only [hxd, Bool.false_eq_true, if_false] at h
          by_cases hxlen : x.nodes.length > 0
          · rw [if_pos hxlen] at h
            rcases hi : inner (children.getD i nilNode) x.nodes with ⟨e', derr⟩
            rw [hi] at h
            rcases derr with _ | d'
            · exact ih _ d h
            · simp only at h
              obtain rfl := Option.some.inj h
              exact hinner _ _ d' (by rw [hi])
          · rw [if_neg hxlen] at h
            exact ih _ d h

theorem unionGoF_err_doc : ∀ (f : ℕ) (n : Node) (ns : NodeList) (d : Node),
    (unionGoF f n ns).2 = some d → d.isDocument = true := by
  intro f
  induction f with
  | zero => intro n ns d h; simp [unionGoF] at h
  | succ f ih =>
    intro n ns d h
    simp only [unionGoF] at h
    rcases hdoc : n.isDocument with _ | _
    · simp only [hdoc, Bool.false_eq_true, if_false] at h
      exact unionLoopF_err (fun e ys d' => ih e ys d') ns n.nodes d h
    · simp only [hdoc, if_true] at h
      obtain rfl := Option.some.inj h
      exact hdoc

/-! ### Merges over container-only forests never fail -/

theorem containerTree_nilNode : ContainerTree nilNode :=
  ContainerTree.intro nilNode rfl (by intro c hc; simp [nilNode] at hc)

theorem unionLoopF_noerr {inner : Node → NodeList → Node × Option Node}
    {orig : NodeList} :
    ∀ (pending children : NodeList),
    (∀ c ∈ children.toList, ContainerTree c) →
    (∀ x ∈ pending.toList, ContainerTree x) →
    (∀ x ∈ pending.toList, ∀ e, ContainerTree e →
        (inner e x.nodes).2 = none ∧ ContainerTree (inner e x.nodes).1) →
    (unionLoopF inner orig children pending).2 = none ∧
    (∀ c ∈ (unionLoopF inner orig children pending).1.toList, ContainerTree c) := by
  intro pending
  induction pending with
  | nil => intro children hch _ _; exact ⟨rfl, hch⟩
  | cons x rest ih =>
    intro children hch hpend hinner
    have hx : ContainerTree x := hpend x (by simp)
    have hrest : ∀ y ∈ rest.toList, ContainerTree y := fun y hy => hpend y (by simp [hy])
    have hrestinner : ∀ y ∈ rest.toList, ∀ e, ContainerTree e →
        (inner e y.nodes).2 = none ∧ ContainerTree (inner e y.nodes).1 :=
      fun y hy => hinner y (by simp [hy])
    simp only [unionLoopF]
    rcases hL : lastIdxOf x.name orig with _ | i
    · refine ih (children.push x) ?_ hrest hrestinner
      intro c hc
      rcases NodeList.mem_push.mp hc with hc | hc
      · exact hch c hc
      · exact hc ▸ hx
    · have he : ContainerTree (children.getD i nilNode) := by
        by_cases hi : i < children.length
        · exact hch _ (NodeList.getD_mem hi _)
        · rw [NodeList.getD_ge (by omega)]
          exact containerTree_nilNode
      rcases hde : Node.deepEqual (children.getD i nilNode) x with _ | _
      case true =>
        simp only [hde, if_true]
        exact ih children hch hrest hrestinner
      case false =>
        simp only [hde, Bool.false_eq_true, if_false]
        rcases hxd : x.isDocument with _ | _
        case true =>
          simp only [hxd, if_true]
          exact ih children hch hrest hrestinner
        case false =>
          simp only [hxd, Bool.false_eq_true, if_false]
          by_cases hxlen : x.nodes.length > 0
          · rw [if_pos hxlen]
            obtain ⟨hno, hct⟩ := hinner x (by simp) (children.getD i nilNode) he
            rcases hi2 : inner (children.getD i nilNode) x.nodes with ⟨e', derr⟩
            rw [hi2] at hno hct
            simp only at hno hct
            subst hno
            refine ih (children.set i e') ?_ hrest hrestinner
            intro c hc
            rcases NodeList.mem_set hc with hc | hc
            · exact hc ▸ hct
            · exact hch c hc
          · rw [if_neg hxlen]
            exact ih children hch hrest hrestinner

theorem unionGoF_noerr : ∀ (f : ℕ) (n : Node) (ns : NodeList),
    ContainerTree n → (∀ x ∈ ns.toList, ContainerTree x) → ns.size < f →
    (unionGoF f n ns).2 = none ∧ ContainerTree (unionGoF f n ns).1 := by
  intro f
  induction f with
  | zero => intro n ns _ _ h; omega
  | succ f ih =>
    intro n ns hn hns hsz
    obtain ⟨_, hdoc, hch⟩ := hn
    simp only [unionGoF, hdoc, Bool.false_eq_true, if_false]
    have hinner : ∀ x ∈ ns.toList, ∀ e, ContainerTree e →
        (unionGoF f e x.nodes).2 = none ∧ ContainerTree (unionGoF f e x.nodes).1 := by
      intro x hx e hce
      obtain ⟨_, -, hxch⟩ := hns x hx
      refine ih e x.nodes hce hxch ?_
      have := NodeList.nodes_size_mem hx
      omega
    obtain ⟨h1, h2⟩ := unionLoopF_noerr ns n.nodes hch hns hinner
    refine ⟨h1, ContainerTree.intro _ (by simp [hdoc]) ?_⟩
    intro c hc
    simp only [Node.nodes_withNodes] at hc
    exact h2 c hc

/-! ### Merging a well-formed node with its own children is a no-op -/

theorem unionLoopF_selfskip {inner : Node → NodeList → Node × Option Node}
    {orig : NodeList} :
    ∀ (pending children : NodeList),
    (∀ x ∈ pending.toList, ∃ i, lastIdxOf x.name orig = some i ∧
        children.getD i nilNode = x) →
    unionLoopF inner orig children pending = (children, none) := by
  intro pending
  induction pending with
  | nil => intro children _; rfl
  | cons x rest ih =>
    intro children hall
    obtain ⟨i, hL, hg⟩ := hall x (by simp)
    simp only [unionLoopF, hL, hg, Node.deepEqual_self, if_true]
    exact ih children (fun y hy => hall y (by simp [hy]))

theorem lastIdxOf_nodup_self {l : NodeList} (hnd : l.names.Nodup) {k : ℕ}
    (hk : k < l.length) : lastIdxOf (l.getD k nilNode).name l = some k := by
  rw [lastIdxOf_eq_str, ← NodeList.getD_names]
  exact lastIdxOfStr_nodup hnd (by simpa using hk)

/-- A self-merge `x.Union(x.Nodes)` (a node merged with its own children) changes
nothing and succeeds, provided `x` is a container whose children have
distinct names: every incoming child deep-equals the mapped child. -/
theorem unionGoF_self {f : ℕ} {x : Node} (hf : 0 < f)
    (hdoc : x.isDocument = false) (hnd : x.nodes.names.Nodup) :
    unionGoF f x x.nodes = (x, none) := by
  cases f with
  | zero => omega
  | succ f =>
    simp only [unionGoF, hdoc, Bool.false_eq_true, if_false]
    rw [unionLoopF_selfskip x.nodes x.nodes ?_]
    · cases x with
      | mk nm s t c ch => rfl
    · intro y hy
      obtain ⟨i, hi, hg⟩ := NodeList.exists_getD_of_mem hy
      exact ⟨i, by rw [← hg]; exact lastIdxOf_nodup_self hnd hi, hg⟩

end Docforge

namespace Docforge

/-! ### Stability of the `nodesByName` lookup across a merge pass -/

theorem Node.withNodes_withNodes (n : Node) (a b : NodeList) :
    (n.withNodes a).withNodes b = n.withNodes b := by
  cases n with
  | mk nm s t c ch => rfl

theorem lastIdxOf_none {nm : String} {l : NodeList} :
    lastIdxOf nm l = none ↔ nm ∉ l.names := by
  rw [lastIdxOf_eq_str]
  exact lastIdxOfStr_none

theorem drop_getD : ∀ (l : List String) (m k : ℕ) (d : String),
    (l.drop m).getD k d = l.getD (m + k) d := by
  intro l
  induction l with
  | nil => intro m k d; simp
  | cons a t ih =>
    intro m k d
    cases m with
    | zero => simp
    | succ m' =>
      simp only [List.drop_succ_cons]
      rw [ih m' k d]
      have : m' + 1 + k = (m' + k) + 1 := by omega
      rw [this]
      rfl

theorem lastIdxOfStr_unique {nm : String} : ∀ {B : List String} {k : ℕ},
    k < B.length → B.getD k "" = nm →
    (∀ j, j < B.length → j ≠ k → B.getD j "" ≠ nm) →
    lastIdxOfStr nm B = some k := by
  intro B
  induction B with
  | nil => intro k h _ _; simp at h
  | cons b t ih =>
    intro k hk hname hother
    cases k with
    | zero =>
      have hb : b = nm := hname
      have hnone : lastIdxOfStr nm t = none := by
        rw [lastIdxOfStr_none]
        apply not_mem_of_getD_ne
        intro j hj
        exact hother (j + 1) (by simpa using hj) (by omega)
      simp [lastIdxOfStr, hnone, hb]
    | succ k' =>
      have hk' : k' < t.length := by simpa using hk
      have ht : lastIdxOfStr nm t = some k' := by
        refine ih hk' hname ?_
        intro j hj hne
        exact hother (j + 1) (by simpa using hj) (by omega)
      simp [lastIdxOfStr, ht]

/-- After a merge pass, a name that the map resolves keeps resolving to
the same slot: positions below `orig.length` keep their names and all
later slots hold names the map cannot resolve. -/
theorem lookup_stable_collision {orig cs : NodeList} {nm : String} {i : ℕ}
    (hlen : orig.length ≤ cs.length)
    (hL : lastIdxOf nm orig = some i)
    (hagreeO : ∀ j, j < orig.length → (cs.getD j nilNode).name = (orig.getD j nilNode).name)
    (hmid : ∀ j, orig.length ≤ j → j < cs.length →
      lastIdxOf (cs.getD j nilNode).name orig = none) :
    lastIdxOf nm cs = some i := by
  rw [lastIdxOf_eq_str]
  have hdecomp : cs.names = cs.names.take orig.length ++ cs.names.drop orig.length :=
    (List.take_append_drop _ _).symm
  have htake : cs.names.take orig.length = orig.names := by
    have h := take_eq_of_getD orig.names cs.names (by simp; omega) (by
      intro j hj
      simp only [NodeList.length_names] at hj
      rw [NodeList.getD_names, NodeList.getD_names]
      exact hagreeO j hj)
    rwa [NodeList.length_names] at h
  have hdrop : lastIdxOfStr nm (cs.names.drop orig.length) = none := by
    rw [lastIdxOfStr_none]
    apply not_mem_of_getD_ne
    intro k hk
    rw [drop_getD]
    have hlt : orig.length + k < cs.length := by
      have := hk
      simp only [List.length_drop, NodeList.length_names] at this
      omega
    rw [NodeList.getD_names]
    intro hcontra
    have := hmid (orig.length + k) (by omega) hlt
    rw [hcontra, hL] at this
    exact Option.some_ne_none i this
  rw [hdecomp, lastIdxOfStr_append, hdrop, htake, ← lastIdxOf_eq_str, hL]

/-- A pushed element with a map-missing name is found by the next pass's
map at exactly its slot, provided no other slot at or above
`orig.length` bears its name. -/
theorem lookup_stable_push {orig cs : NodeList} {nm : String} {k : ℕ}
    (hk : orig.length ≤ k) (hklt : k < cs.length)
    (hL : lastIdxOf nm orig = none)
    (hagreeO : ∀ j, j < orig.length → (cs.getD j nilNode).name = (orig.getD j nilNode).name)
    (hkname : (cs.getD k nilNode).name = nm)
    (hother : ∀ j, orig.length ≤ j → j < cs.length → j ≠ k →
      (cs.getD j nilNode).name ≠ nm) :
    lastIdxOf nm cs = some k := by
  rw [lastIdxOf_eq_str]
  have hdecomp : cs.names = cs.names.take orig.length ++ cs.names.drop orig.length :=
    (List.take_append_drop _ _).symm
  have htake : cs.names.take orig.length = orig.names := by
    have h := take_eq_of_getD orig.names cs.names (by simp; omega) (by
      intro j hj
      simp only [NodeList.length_names] at hj
      rw [NodeList.getD_names, NodeList.getD_names]
      exact hagreeO j hj)
    rwa [NodeList.length_names] at h
  have hdroplen : (cs.names.drop orig.length).length = cs.length - orig.length := by
    simp [List.length_drop]
  have hdrop : lastIdxOfStr nm (cs.names.drop orig.length) = some (k - orig.length) := by
    apply lastIdxOfStr_unique
    · omega
    · rw [drop_getD, NodeList.getD_names]
      have : orig.length + (k - orig.length) = k := by omega
      rw [this, hkname]
    · intro j hj hne
      rw [drop_getD, NodeList.getD_names]
      rw [hdroplen] at hj
      exact hother (orig.length + j) (by omega) (by omega) (by omega)
  rw [hdecomp, lastIdxOfStr_append, hdrop]
  simp only [List.length_take, NodeList.length_names]
  have : min orig.length cs.length = orig.length := by omega
  rw [this]
  congr 1
  omega

end Docforge

namespace Docforge

theorem NodeList.name_mem_names {x : Node} {l : NodeList} (h : x ∈ l.toList) :
    x.name ∈ l.names := by
  induction l with
  | nil => simp at h
  | cons hd tl ih =>
    simp only [NodeList.toList_cons, List.mem_cons] at h
    rcases h with h | h
    · simp [h]
    · simp [ih h]

/-- Re-running one merge pass over its own result changes nothing
(children and error alike), provided the incoming nodes have pairwise
distinct names and the recursive merges are themselves idempotent.
`c` is the first pass's running state; the invariants relate it to the
map source `orig`. -/
theorem unionLoopF_idem {f : ℕ} {orig : NodeList} :
    ∀ (pending c cs : NodeList) (err : Option Node),
    (∀ x ∈ pending.toList, x.nodes.names.Nodup) →
    pending.names.Nodup →
    (∀ x ∈ pending.toList, x.nodes.size < f) →
    (∀ x ∈ pending.toList, ∀ e r ierr, unionGoF f e x.nodes = (r, ierr) →
        unionGoF f r x.nodes = (r, ierr)) →
    orig.length ≤ c.length →
    (∀ j, j < orig.length → (c.getD j nilNode).name = (orig.getD j nilNode).name) →
    (∀ j, orig.length ≤ j → j < c.length →
        lastIdxOf (c.getD j nilNode).name orig = none ∧
        (c.getD j nilNode).name ∉ pending.names) →
    unionLoopF (unionGoF f) orig c pending = (cs, err) →
    unionLoopF (unionGoF f) cs cs pending = (cs, err) := by
  intro pending
  induction pending with
  | nil =>
    intro c cs err _ _ _ _ _ _ _ heq
    simp only [unionLoopF, Prod.mk.injEq] at heq
    obtain ⟨rfl, rfl⟩ := heq
    rfl
  | cons x rest ih =>
    intro c cs err hwfx hnd hfuel hP1 hlen hagree happ heq
    obtain ⟨hxrest, hndrest⟩ := List.nodup_cons.mp hnd
    have hwfx_x : x.nodes.names.Nodup := hwfx x (by simp)
    have hwfrest : ∀ y ∈ rest.toList, y.nodes.names.Nodup :=
      fun y hy => hwfx y (by simp [hy])
    have hfuelx : x.nodes.size < f := hfuel x (by simp)
    have hfuelrest : ∀ y ∈ rest.toList, y.nodes.size < f :=
      fun y hy => hfuel y (by simp [hy])
    have hP1x := hP1 x (by simp)
    have hP1rest : ∀ y ∈ rest.toList, ∀ e r ierr, unionGoF f e y.nodes = (r, ierr) →
        unionGoF f r y.nodes = (r, ierr) := fun y hy => hP1 y (by simp [hy])
    obtain ⟨hs1, hs2, hs3, hs4⟩ :=
      unionLoopF_shape (fun e ys => unionGoF_contentEq f e ys) orig
        (NodeList.cons x rest) c cs err hlen heq
    have hagreecs : ∀ j, j < orig.length →
        (cs.getD j nilNode).name = (orig.getD j nilNode).name := by
      intro j hj
      rw [(hs2 j hj).1]
      exact hagree j hj
    simp only [unionLoopF] at heq ⊢
    rcases hL : lastIdxOf x.name orig with _ | i
    · -- x's name misses the map: the first pass appended x at slot c.length
      rw [hL] at heq
      obtain ⟨hs1', hs2', hs3', hs4'⟩ :=
        unionLoopF_shape (fun e ys => unionGoF_contentEq f e ys) orig
          rest (c.push x) cs err (by simp; omega) heq
      simp only [NodeList.length_push] at hs1' hs3' hs4'
      have hkey : cs.getD c.length nilNode = x := by
        rw [hs3' c.length (by omega) (by omega)]
        exact NodeList.getD_push_self c x nilNode
      have hother : ∀ j, orig.length ≤ j → j < cs.length → j ≠ c.length →
          (cs.getD j nilNode).name ≠ x.name := by
        intro j hj1 hj2 hjne
        by_cases hjc : j < c.length
        · rw [hs3' j hj1 (by omega), NodeList.getD_push_lt hjc]
          intro hcon
          exact (happ j hj1 hjc).2 (hcon ▸ List.mem_cons_self x.name rest.names)
        · have hmem := (hs4' j (by omega) hj2).1
          intro hcon
          exact hxrest (hcon ▸ NodeList.name_mem_names hmem)
      have hLcs : lastIdxOf x.name cs = some c.length :=
        lookup_stable_push hlen (by omega) hL hagreecs
          (by rw [hkey]) hother
      simp only [hLcs, hkey, Node.deepEqual_self, if_true]
      refine ih (c.push x) cs err hwfrest hndrest hfuelrest hP1rest
        (by simp; omega) ?_ ?_ heq
      · intro j hj
        rw [NodeList.getD_push_lt (by omega)]
        exact hagree j hj
      · intro j hj1 hj2
        simp only [NodeList.length_push] at hj2
        by_cases hjc : j < c.length
        · rw [NodeList.getD_push_lt hjc]
          obtain ⟨ha, hb⟩ := happ j hj1 hjc
          exact ⟨ha, fun hmem => hb (List.mem_cons_of_mem _ hmem)⟩
        · have hj : j = c.length := by omega
          subst hj
          rw [NodeList.getD_push_self]
          exact ⟨hL, hxrest⟩
    · -- collision: the map resolves x's name at slot i in both passes
      simp only [hL] at heq
      have hilt : i < orig.length := lastIdxOf_lt hL
      have hmid : ∀ j, orig.length ≤ j → j < cs.length →
          lastIdxOf (cs.getD j nilNode).name orig = none := by
        intro j hj1 hj2
        by_cases hjc : j < c.length
        · rw [hs3 j hj1 hjc]
          exact (happ j hj1 hjc).1
        · exact (hs4 j (by omega) hj2).2
      have hLcs : lastIdxOf x.name cs = some i :=
        lookup_stable_collision (by omega) hL hagreecs hmid
      simp only [hLcs]
      have hnotouch : ∀ y ∈ rest.toList, lastIdxOf y.name orig ≠ some i := by
        intro y hy hcon
        have h1 := lastIdxOf_name_getD hcon
        have h2 := lastIdxOf_name_getD hL
        have : y.name = x.name := by rw [← h1, h2]
        exact hxrest (this ▸ NodeList.name_mem_names hy)
      have happrest : ∀ j, orig.length ≤ j → j < c.length →
          lastIdxOf (c.getD j nilNode).name orig = none ∧
          (c.getD j nilNode).name ∉ rest.names := by
        intro j hj1 hj2
        obtain ⟨ha, hb⟩ := happ j hj1 hj2
        exact ⟨ha, fun hmem => hb (List.mem_cons_of_mem _ hmem)⟩
      rcases hde : Node.deepEqual (c.getD i nilNode) x with _ | _
      case true =>
        -- first pass skipped (deep equal); the slot is untouched by the rest
        simp only [hde, if_true] at heq
        have hfr := @unionLoopF_frozen (unionGoF f) orig rest c i (by omega) hnotouch
        rw [heq] at hfr
        simp only at hfr
        rw [hfr]
        simp only [hde, if_true]
        exact ih c cs err hwfrest hndrest hfuelrest hP1rest hlen hagree happrest heq
      case false =>
        simp only [hde, Bool.false_eq_true, if_false] at heq
        rcases hxd : x.isDocument with _ | _
        case true =>
          -- incoming document collision: skipped, slot untouched
          simp only [hxd, if_true] at heq
          have hfr := @unionLoopF_frozen (unionGoF f) orig rest c i (by omega) hnotouch
          rw [heq] at hfr
          simp only at hfr
          rw [hfr]
          simp only [hde, hxd, Bool.false_eq_true, if_false, if_true]
          exact ih c cs err hwfrest hndrest hfuelrest hP1rest hlen hagree happrest heq
        case false =>
          simp only [hxd, Bool.false_eq_true, if_false] at heq
          by_cases hxlen : x.nodes.length > 0
          · rw [if_pos hxlen] at heq
            have hfpos : 0 < f := by omega
            rcases hi : unionGoF f (c.getD i nilNode) x.nodes with ⟨e1, ierr⟩
            rw [hi] at heq
            have hce1 : contentEq e1 (c.getD i nilNode) := by
              have := unionGoF_contentEq f (c.getD i nilNode) x.nodes
              rwa [hi] at this
            rcases ierr with _ | d
            · -- recursive merge succeeded; loop continued from c.set i e1
              replace heq : unionLoopF (unionGoF f) orig (c.set i e1) rest = (cs, err) := heq
              have hfr := @unionLoopF_frozen (unionGoF f) orig rest
                  (c.set i e1) i (by simp; omega) hnotouch
              rw [heq] at hfr
              simp only at hfr
              rw [NodeList.getD_set_self (by omega)] at hfr
              have hagree' : ∀ j, j < orig.length →
                  ((c.set i e1).getD j nilNode).name = (orig.getD j nilNode).name := by
                intro j hj
                by_cases hij : i = j
                · subst hij
                  rw [NodeList.getD_set_self (by omega), hce1.1]
                  exact hagree i hj
                · rw [NodeList.getD_set_ne hij]
                  exact hagree j hj
              have happ' : ∀ j, orig.length ≤ j → j < (c.set i e1).length →
                  lastIdxOf ((c.set i e1).getD j nilNode).name orig = none ∧
                  ((c.set i e1).getD j nilNode).name ∉ rest.names := by
                intro j hj1 hj2
                simp only [NodeList.length_set] at hj2
                have hij : i ≠ j := by omega
                rw [NodeList.getD_set_ne hij]
                exact happrest j hj1 hj2
              have hIH := ih (c.set i e1) cs err hwfrest hndrest hfuelrest hP1rest
                (by simp; omega) hagree' happ' heq
              rw [hfr]
              by_cases hde2 : e1 = x
              · rw [hde2, Node.deepEqual_self]
                simp only [if_true]
                exact hIH
              · rw [Node.deepEqual_eq_false hde2]
                simp only [Bool.false_eq_true, if_false, if_pos hxlen]
                rw [hP1x (c.getD i nilNode) e1 none hi]
                have hset : cs.set i e1 = cs := by
                  rw [← hfr]
                  exact NodeList.set_getD_self (by omega) nilNode
                show unionLoopF (unionGoF f) cs (cs.set i e1) rest = (cs, err)
                rw [hset]
                exact hIH
            · -- recursive merge failed; the pass aborted at x
              simp only [Prod.mk.injEq] at heq
              obtain ⟨hcs, herr⟩ := heq
              subst hcs
              subst herr
              have hgd : ((c.set i e1).getD i nilNode) = e1 :=
                NodeList.getD_set_self (by omega) _ _
              have hne : e1 ≠ x := by
                intro hcontra
                have h1 := hP1x (c.getD i nilNode) e1 (some d) hi
                rw [hcontra] at h1
                rw [@unionGoF_self f x hfpos hxd hwfx_x] at h1
                simp at h1
              rw [hgd, Node.deepEqual_eq_false hne]
              simp only [Bool.false_eq_true, if_false, if_pos hxlen]
              rw [hP1x (c.getD i nilNode) e1 (some d) hi]
              simp only [NodeList.set_set]
          · rw [if_neg hxlen] at heq
            have hfr := @unionLoopF_frozen (unionGoF f) orig rest c i (by omega) hnotouch
            rw [heq] at hfr
            simp only at hfr
            rw [hfr]
            simp only [hde, hxd, Bool.false_eq_true, if_false, if_neg hxlen]
            exact ih c cs err hwfrest hndrest hfuelrest hP1rest hlen hagree happrest heq

end Docforge

namespace Docforge

/-- Idempotence of the merge at the fuel level: running `Union` a second
time with the same incoming list (of pairwise-distinctly-named,
well-formed trees) reproduces the first result exactly — same children,
same error. -/
theorem unionGoF_idem : ∀ (f : ℕ) (n : Node) (ns : NodeList) (n' : Node)
    (err : Option Node),
    (∀ x ∈ ns.toList, NodupTree x) → ns.names.Nodup → ns.size < f →
    unionGoF f n ns = (n', err) → unionGoF f n' ns = (n', err) := by
  intro f
  induction f with
  | zero => intro n ns n' err _ _ h _; omega
  | succ f ih =>
    intro n ns n' err hwf hnd hsz heq
    have hwfnames : ∀ x ∈ ns.toList, x.nodes.names.Nodup := by
      intro x hx
      obtain ⟨_, h1, _⟩ := hwf x hx
      exact h1
    have hfuel : ∀ x ∈ ns.toList, x.nodes.size < f := by
      intro x hx
      have := NodeList.nodes_size_mem hx
      omega
    have hP1 : ∀ x ∈ ns.toList, ∀ e r ierr, unionGoF f e x.nodes = (r, ierr) →
        unionGoF f r x.nodes = (r, ierr) := by
      intro x hx e r ierr h
      obtain ⟨_, hxnd, hxch⟩ := hwf x hx
      exact ih e x.nodes r ierr hxch hxnd (hfuel x hx) h
    rcases hdoc : n.isDocument with _ | _
    · simp only [unionGoF, hdoc, Bool.false_eq_true, if_false] at heq
      rcases hL : unionLoopF (unionGoF f) n.nodes n.nodes ns with ⟨cs, lerr⟩
      rw [hL] at heq
      simp only [Prod.mk.injEq] at heq
      obtain ⟨rfl, rfl⟩ := heq
      have hdoc2 : (n.withNodes cs).isDocument = false := by simp [hdoc]
      simp only [unionGoF, hdoc2, Bool.false_eq_true, if_false, Node.nodes_withNodes]
      have hloop := unionLoopF_idem ns n.nodes cs lerr hwfnames hnd hfuel hP1
        le_rfl (fun j _ => rfl) (fun j hj1 hj2 => absurd hj2 (by omega)) hL
      rw [hloop, Node.withNodes_withNodes]
    · simp only [unionGoF, hdoc, if_true] at heq
      simp only [Prod.mk.injEq] at heq
      obtain ⟨rfl, rfl⟩ := heq
      simp [unionGoF, hdoc]

end Docforge

namespace Docforge

/-! ### `doValidation` retry loop lemmas -/

theorem dvLoop_zero (respond : ℕ → Option HttpResponse) (rand : ℕ → ℕ)
    (attempts : ℕ) (resp : HttpResponse) (sleeps : List Int) (calls : ℕ) :
    dvLoop respond rand 0 attempts resp sleeps calls = ⟨some resp, sleeps, calls⟩ := rfl

theorem dvLoop_not429 (respond : ℕ → Option HttpResponse) (rand : ℕ → ℕ)
    (remaining attempts : ℕ) (resp : HttpResponse) (sleeps : List Int) (calls : ℕ)
    (h : resp.status ≠ 429) :
    dvLoop respond rand (remaining + 1) attempts resp sleeps calls =
      ⟨some resp, sleeps, calls⟩ := by
  simp [dvLoop, h]

theorem dvLoop_step429 (respond : ℕ → Option HttpResponse) (rand : ℕ → ℕ)
    (remaining attempts : ℕ) (rav : Option Int) (sleeps : List Int) (calls : ℕ)
    (nxt : HttpResponse) (h : respond calls = some nxt) :
    dvLoop respond rand (remaining + 1) attempts ⟨429, rav⟩ sleeps calls =
      dvLoop respond rand remaining (attempts + 1) nxt
        (sleeps ++ [retrySleep rav
          (intervalsGo.getD attempts 0 + (rand attempts % (attempts + 1) : ℕ))])
        (calls + 1) := by
  simp only [dvLoop, retrySleep, h, if_true]

theorem dvLoop_calls_le (respond : ℕ → Option HttpResponse) (rand : ℕ → ℕ) :
    ∀ (remaining attempts : ℕ) (resp : HttpResponse) (sleeps : List Int) (calls : ℕ),
    calls ≤ (dvLoop respond rand remaining attempts resp sleeps calls).calls := by
  intro remaining
  induction remaining with
  | zero => intro attempts resp sleeps calls; simp [dvLoop]
  | succ r ih =>
    intro attempts resp sleeps calls
    by_cases h : resp.status = 429
    · simp only [dvLoop, if_pos h]
      rcases hr : respond calls with _ | nxt
      · simp
      · exact le_trans (by omega) (ih (attempts + 1) nxt _ (calls + 1))
    · simp [dvLoop, h]

theorem doValidation_calls_pos (respond : ℕ → Option HttpResponse) (rand : ℕ → ℕ) :
    0 < (doValidation respond rand).calls := by
  unfold doValidation
  rcases h : respond 0 with _ | r
  · simp
  · exact lt_of_lt_of_le (by omega) (dvLoop_calls_le respond rand _ 0 r [] 1)

theorem doValidation_stops_on_non429 (respond : ℕ → Option HttpResponse)
    (rand : ℕ → ℕ) (r : HttpResponse) (h0 : respond 0 = some r)
    (hs : r.status ≠ 429) : doValidation respond rand = ⟨some r, [], 1⟩ := by
  simp only [doValidation, h0]
  exact dvLoop_not429 respond rand 2 0 r [] 1 hs

/-- The full rate-limited run: four probes, three sleeps drawn from the
base schedule `1, 5, 10` (the fourth interval, `20`, is never reached
because the loop stops at `attempts < len(intervals)-1`), each possibly
overridden by `Retry-After`. -/
theorem doValidation_rate_limited (respond : ℕ → Option HttpResponse)
    (rand : ℕ → ℕ) (ra : ℕ → Option Int)
    (h : ∀ k, k ≤ 3 → respond k = some ⟨429, ra k⟩) :
    doValidation respond rand =
      ⟨some ⟨429, ra 3⟩,
       [retrySleep (ra 0) (1 + (rand 0 % 1 : ℕ)),
        retrySleep (ra 1) (5 + (rand 1 % 2 : ℕ)),
        retrySleep (ra 2) (10 + (rand 2 % 3 : ℕ))], 4⟩ := by
  have h0 := h 0 (by omega)
  have h1 := h 1 (by omega)
  have h2 := h 2 (by omega)
  have h3 := h 3 (by omega)
  have hstart : doValidation respond rand =
      dvLoop respond rand 3 0 ⟨429, ra 0⟩ [] 1 := by
    simp [doValidation, h0, intervalsGo]
  rw [hstart, dvLoop_step429 _ _ _ _ _ _ _ _ h1, dvLoop_step429 _ _ _ _ _ _ _ _ h2,
    dvLoop_step429 _ _ _ _ _ _ _ _ h3, dvLoop_zero]
  simp [intervalsGo]

end Docforge

namespace Docforge

/-! ### `relativePath` over ancestor chains -/

theorem intersect_of_subset {a b : List PNode} (h : ∀ x ∈ b, x ∈ a) :
    intersect a b = b := by
  unfold intersect
  apply List.filter_eq_self.mpr
  intro x hx
  have := h x hx
  exact List.elem_eq_true_of_mem this

/-- Claim C6: for every node `fro` and strict ancestor `tgt` (the chain of
`tgt` is a proper prefix of the chain of `fro`, parent links set and the
chain free of repeats), `relativePath fro tgt` is exactly
`depth fro - depth tgt` occurrences of `..` joined by `/`, followed by
`tgt`'s name. -/
theorem relativePath_strict_ancestor (fro tgt : PNode)
    (froParents toParents ext : List PNode)
    (hchain : froParents ++ [fro] = (toParents ++ [tgt]) ++ ext)
    (hne : ext ≠ [])
    (hnd : (froParents ++ [fro]).Nodup) :
    relativePath fro tgt froParents toParents =
      String.intercalate "/"
        (List.replicate (froParents.length - toParents.length) ".." ++ [tgt.name]) := by
  have hlen : froParents.length + 1 = toParents.length + 1 + ext.length := by
    have h := congrArg List.length hchain
    simp at h
    omega
  have hfro_ext : fro ∈ ext := by
    have hl1 : (froParents ++ [fro]).getLast? = some fro := List.getLast?_concat _
    rw [hchain, List.getLast?_append] at hl1
    obtain ⟨e, he⟩ := Option.isSome_iff_exists.mp (List.getLast?_isSome.mpr hne)
    rw [he] at hl1
    have heq : e = fro := by simpa using hl1
    subst heq
    exact List.mem_of_getLast?_eq_some he
  have htgt_to : tgt ∈ toParents ++ [tgt] := by simp
  have hne_ft : fro ≠ tgt := by
    intro hcontra
    rw [hchain] at hnd
    exact (List.nodup_append.mp hnd).2.2 htgt_to (hcontra ▸ hfro_ext)
  have hsub : ∀ x ∈ toParents ++ [tgt], x ∈ froParents ++ [fro] := by
    intro x hx
    rw [hchain]
    exact List.mem_append_left _ hx
  have hinter : intersect (froParents ++ [fro]) (toParents ++ [tgt]) =
      toParents ++ [tgt] := intersect_of_subset hsub
  have hlast : (toParents ++ [tgt]).getLast? = some tgt := List.getLast?_concat _
  have hdrop : (froParents ++ [fro]).drop (toParents ++ [tgt]).length = ext := by
    rw [hchain]
    exact List.drop_left _ _
  simp only [relativePath, if_neg hne_ft, hinter, hlast]
  have hlpos : 0 < (toParents ++ [tgt]).length := by simp
  rw [if_pos hlpos]
  rw [if_neg (show ¬(some tgt = some fro) from
    fun hc => hne_ft (Option.some.inj hc).symm)]
  rw [if_pos trivial, hdrop]
  have hmap : ext.map (fun _ => "..") = List.replicate ext.length ".." := by
    simp [List.map_const']
  rw [hmap]
  have hextlen : ext.length = froParents.length - toParents.length := by omega
  rw [hextlen]

end Docforge

namespace Docforge

/-! ### `ReadGitInfo` post-processing lemmas -/

theorem cleanEntry_email (e : GitLogEntry) : (cleanEntry e).email = e.email := rfl

theorem getLastD_map_cleanEntry (log : List GitLogEntry) : ∀ d,
    (log.map cleanEntry).getLastD (cleanEntry d) = cleanEntry (log.getLastD d) := by
  induction log with
  | nil => intro d; rfl
  | cons a t ih =>
    intro d
    simp only [List.map_cons, List.getLastD_cons]
    exact ih a

theorem headD_map_cleanEntry (log : List GitLogEntry) (d : GitLogEntry) :
    (log.map cleanEntry).headD (cleanEntry d) = cleanEntry (log.headD d) := by
  cases log with
  | nil => rfl
  | cons a t => rfl

end Docforge

namespace Docforge

/-! ## Claim theorems -/

/-- Witness for C6 at a concrete chain: `fro = a` with parents `[r, p]`,
`tgt = p` with parents `[r]`; the relative path is `../p`. -/
theorem relativePath_strict_ancestor_witness :
    relativePath ⟨2, "a"⟩ ⟨1, "p"⟩ [⟨0, "r"⟩, ⟨1, "p"⟩] [⟨0, "r"⟩] = "../p" := by
  rw [relativePath_strict_ancestor ⟨2, "a"⟩ ⟨1, "p"⟩ [⟨0, "r"⟩, ⟨1, "p"⟩] [⟨0, "r"⟩]
    [⟨2, "a"⟩] rfl (by decide) (by decide)]
  rfl

/-- Counterexample to C1 as stated: on a name collision with a structurally
different incoming container, `Union` recurse-merges into the existing
child (here `"a"` absorbs the grandchild `"y"`) instead of invoking any
name generator and appending a renamed sibling; the child list keeps the
single name `"a"`. -/
theorem union_recursive_merge_cex :
    cexTarget.union (.cons cexIncoming .nil) =
      (contNode "" (.cons (contNode "a"
        (.cons (docNode "x" "sx") (.cons (docNode "y" "sy") .nil))) .nil), none) ∧
    (cexTarget.union (.cons cexIncoming .nil)).1.nodes.names = cexTarget.nodes.names := by
  exact ⟨rfl, rfl⟩

/-- Claim C1 (amended): `Union` never renames — for every receiver and
incoming list, the merged node keeps its content fields; no existing
child slot is dropped; each existing slot keeps its content fields
(`Name`, `Source`, `Template`, `ContentSelectors`); and every appended
slot is one of the incoming nodes whose name collides with no initial
child.  (Collisions are resolved by recursive merge or skip, never by a
renamed sibling.) -/
theorem union_never_renames (n : Node) (ns : NodeList) :
    contentEq (n.union ns).1 n ∧
    n.nodes.length ≤ (n.union ns).1.nodes.length ∧
    (∀ j, j < n.nodes.length →
      contentEq ((n.union ns).1.nodes.getD j nilNode) (n.nodes.getD j nilNode)) ∧
    (∀ j, n.nodes.length ≤ j → j < (n.union ns).1.nodes.length →
      ((n.union ns).1.nodes.getD j nilNode) ∈ ns.toList ∧
      lastIdxOf ((n.union ns).1.nodes.getD j nilNode).name n.nodes = none) := by
  have hu : n.union ns = unionGoF (ns.size + 1) n ns := rfl
  rcases hdoc : n.isDocument with _ | _
  · rcases hL : unionLoopF (unionGoF ns.size) n.nodes n.nodes ns with ⟨cs, err⟩
    have hres : n.union ns = (n.withNodes cs, err) := by
      rw [hu]
      simp only [unionGoF, hdoc, Bool.false_eq_true, if_false]
      rw [hL]
    obtain ⟨s1, s2, s3, s4⟩ :=
      unionLoopF_shape (fun e ys => unionGoF_contentEq ns.size e ys) n.nodes ns
        n.nodes cs err le_rfl hL
    rw [hres]
    simp only [Node.nodes_withNodes]
    refine ⟨contentEq_withNodes n cs, s1, s2, ?_⟩
    intro j h1 h2
    exact s4 j h1 h2
  · have hres : n.union ns = (n, some n) := by
      rw [hu]
      simp only [unionGoF, hdoc, if_true]
    rw [hres]
    exact ⟨contentEq_refl n, le_rfl, fun j _ => contentEq_refl _,
      fun j h1 h2 => absurd (lt_of_le_of_lt h1 h2) (lt_irrefl _)⟩

/-- Claim C4: `Union` fails exactly on document receivers — a document
receiver returns itself as the error; any error returned at any level is
a document node; and a merge of container-only trees returns no error
regardless of name collisions. -/
theorem union_error_iff_document_receiver :
    (∀ (n : Node) (ns : NodeList), n.isDocument = true → n.union ns = (n, some n)) ∧
    (∀ (n : Node) (ns : NodeList) (d : Node),
      (n.union ns).2 = some d → d.isDocument = true) ∧
    (∀ (n : Node) (ns : NodeList), ContainerTree n →
      (∀ x ∈ ns.toList, ContainerTree x) → (n.union ns).2 = none) := by
  refine ⟨?_, ?_, ?_⟩
  · intro n ns h
    show unionGoF (ns.size + 1) n ns = (n, some n)
    simp only [unionGoF, h, if_true]
  · intro n ns d h
    exact unionGoF_err_doc (ns.size + 1) n ns d h
  · intro n ns hn hns
    exact (unionGoF_noerr (ns.size + 1) n ns hn hns (by omega)).1

end Docforge

namespace Docforge

/-- Counterexample to C5 as stated: merging `cexDupIncoming` (two
structurally different containers both named `"a"`) into an empty root
twice changes the children again — the once-merged root has two `"a"`
children (the collision map is built from the *initial* children only,
so both got appended), and the second merge recursively mutates the
later `"a"`.  Both merges report no error. -/
theorem union_not_idempotent_cex :
    cexOnce.2 = none ∧ cexTwice.2 = none ∧ cexTwice.1.nodes ≠ cexOnce.1.nodes := by
  refine ⟨rfl, rfl, ?_⟩
  decide

/-- Claim C5 (amended): `Union` is idempotent whenever the incoming
nodes carry pairwise distinct names at every level: if `n.union ns`
yields `(n', err)`, merging the same list into the result again yields
`(n', err)` — in particular a deeply equal node is skipped, appending no
duplicate child. -/
theorem union_idempotent_distinct_names (n n' : Node) (ns : NodeList) (err : Option Node)
    (hwf : ∀ x ∈ ns.toList, NodupTree x) (hnd : ns.names.Nodup)
    (h : n.union ns = (n', err)) : n'.union ns = (n', err) :=
  unionGoF_idem (ns.size + 1) n ns n' err hwf hnd (by omega) h

/-- Witness for C5 (amended) at a concrete input: re-merging a
single-container list into the result of the first merge is the
identity. -/
theorem union_idempotent_distinct_names_witness :
    (contNode "" (.cons (contNode "a" (.cons (docNode "x" "sx") .nil)) .nil)).union
      (.cons (contNode "a" (.cons (docNode "x" "sx") .nil)) .nil) =
    (contNode "" (.cons (contNode "a" (.cons (docNode "x" "sx") .nil)) .nil), none) := by
  refine union_idempotent_distinct_names emptyRoot _ _ none ?_ (by decide) (by decide)
  intro x hx
  simp only [NodeList.toList_cons, NodeList.toList_nil, List.mem_singleton] at hx
  subst hx
  refine NodupTree.intro _ (by decide) ?_
  intro c hc
  simp only [contNode, Node.nodes_mk, NodeList.toList_cons, NodeList.toList_nil,
    List.mem_singleton] at hc
  subst hc
  refine NodupTree.intro _ (by decide) ?_
  intro c2 hc2
  simp [docNode] at hc2

end Docforge

namespace Docforge

/-- Counterexample to C2 as stated: the HEAD probe fails at the
transport level (the oracle answers `none`), yet `Validate` returns no
error and the normalized URL *is* added to the validated set. -/
theorem validate_transport_error_marked_cex :
    validate (fun _ => none) (fun _ => none) (fun _ => 0) true true []
      ⟨"https", "example.com", "/a", "", "", ""⟩ =
      ⟨none, [("https", "example.com", "/a")], 1, 0⟩ := rfl

/-- Claim C2 (amended): once `Validate` passes the denylist, the
dedup check and request construction, it adds the normalized URL to the
validated set *unconditionally* — also on a transport-level failure or a
persistent error status (the only probe-stage exit that skips the add is
a GET request-construction failure, excluded by `hget`). -/
theorem validate_always_marks_probed_url (headRespond getRespond : ℕ → Option HttpResponse)
    (rand : ℕ → ℕ) (getReqOk : Bool) (validated : List LinkKey) (u : URL)
    (hsam : sampleHost (hostnameOf u.host) = false)
    (hmem : unifiedKey u ∉ validated)
    (hget : ∀ r, (doValidation headRespond rand).response = some r →
      400 ≤ r.status → r.status ≠ 403 → r.status ≠ 401 → getReqOk = true) :
    (validate headRespond getRespond rand true getReqOk validated u).validated =
      unifiedKey u :: validated := by
  simp only [validate, hsam, Bool.false_eq_true, if_false, if_neg hmem, Bool.not_true]
  split
  · rfl
  · rename_i r heq
    split
    · rename_i hb
      simp only [Bool.and_eq_true, decide_eq_true_eq] at hb
      obtain ⟨⟨h1, h2⟩, h3⟩ := hb
      have hg := hget r heq h1 h2 h3
      subst hg
      simp
    · rfl

/-- Witness for C2 (amended) at a concrete input: a transport-failing
HEAD oracle still yields the URL in the validated set. -/
theorem validate_always_marks_probed_url_witness :
    (validate (fun _ => none) (fun _ => none) (fun _ => 0) true true []
      ⟨"https", "example.com", "/a", "q", "f", "usr"⟩).validated =
      unifiedKey ⟨"https", "example.com", "/a", "q", "f", "usr"⟩ :: [] := by
  refine validate_always_marks_probed_url _ _ _ _ _ _ (by decide) (by simp) ?_
  intro r hr
  rw [show (doValidation (fun _ => none) (fun _ => 0)).response = none from rfl] at hr
  exact Option.noConfusion hr

end Docforge

namespace Docforge

/-- Counterexample to C3 as stated: under persistent 429 with no
`Retry-After`, `doValidation` sleeps `1, 5, 10` — it never reaches the
fourth base interval `20`, because the loop condition is
`attempts < len(intervals)-1`. -/
theorem doValidation_schedule_cex :
    doValidation (fun _ => some ⟨429, none⟩) (fun _ => 0) =
      ⟨some ⟨429, none⟩, [1, 5, 10], 4⟩ := rfl

/-- Claim C3 (amended): under persistent 429 the retry schedule is the
base delays `1, 5, 10` plus jitter bounded by the attempt index, each
delay overridden by a `Retry-After` value of at most 300 seconds
(`retrySleep`); a fourth probe is made but interval `20` is never slept;
retrying stops immediately on a non-429 status. -/
theorem doValidation_retry_schedule :
    (∀ (respond : ℕ → Option HttpResponse) (rand : ℕ → ℕ) (ra : ℕ → Option Int),
      (∀ k, k ≤ 3 → respond k = some ⟨429, ra k⟩) →
      doValidation respond rand =
        ⟨some ⟨429, ra 3⟩,
         [retrySleep (ra 0) (1 + (rand 0 % 1 : ℕ)),
          retrySleep (ra 1) (5 + (rand 1 % 2 : ℕ)),
          retrySleep (ra 2) (10 + (rand 2 % 3 : ℕ))], 4⟩) ∧
    (∀ (respond : ℕ → Option HttpResponse) (rand : ℕ → ℕ) (r : HttpResponse),
      respond 0 = some r → r.status ≠ 429 →
      doValidation respond rand = ⟨some r, [], 1⟩) ∧
    (∀ (j k : ℕ), j % (k + 1) ≤ k) := by
  refine ⟨?_, ?_, ?_⟩
  · intro respond rand ra h
    exact doValidation_rate_limited respond rand ra h
  · intro respond rand r h0 hs
    exact doValidation_stops_on_non429 respond rand r h0 hs
  · intro j k
    exact Nat.lt_succ_iff.mp (Nat.mod_lt j (Nat.succ_pos k))

/-- Claim C8: a HEAD status of 403 or 401 triggers no GET retry and a
nil outcome; a HEAD status `≥ 400` other than those two triggers exactly
one GET probe round. -/
theorem validate_forbidden_no_get_retry (headRespond getRespond : ℕ → Option HttpResponse)
    (rand : ℕ → ℕ) (getReqOk : Bool) (validated : List LinkKey) (u : URL) (r : HttpResponse)
    (hsam : sampleHost (hostnameOf u.host) = false)
    (hmem : unifiedKey u ∉ validated)
    (hresp : (doValidation headRespond rand).response = some r) :
    (r.status = 403 ∨ r.status = 401 →
      validate headRespond getRespond rand true getReqOk validated u =
        ⟨none, unifiedKey u :: validated, (doValidation headRespond rand).calls, 0⟩) ∧
    (400 ≤ r.status → r.status ≠ 403 → r.status ≠ 401 →
      validate headRespond getRespond rand true true validated u =
        ⟨none, unifiedKey u :: validated, (doValidation headRespond rand).calls,
          (doValidation getRespond rand).calls⟩ ∧
      0 < (doValidation getRespond rand).calls) := by
  constructor
  · intro hor
    simp only [validate, hsam, Bool.false_eq_true, if_false, if_neg hmem, Bool.not_true]
    split
    · rename_i heq
      rw [hresp] at heq
    · rename_i r2 heq
      rw [hresp] at heq
      injection heq with heq
      subst heq
      split
      · rename_i hb
        simp only [Bool.and_eq_true, decide_eq_true_eq] at hb
        obtain ⟨⟨h1, h2⟩, h3⟩ := hb
        rcases hor with h | h
        · exact absurd h h2
        · exact absurd h h3
      · rfl
  · intro h1 h2 h3
    refine ⟨?_, doValidation_calls_pos getRespond rand⟩
    simp only [validate, hsam, Bool.false_eq_true, if_false, if_neg hmem, Bool.not_true]
    split
    · rename_i heq
      rw [hresp] at heq
      exact Option.noConfusion heq
    · rename_i r2 heq
      rw [hresp] at heq
      injection heq with heq
      subst heq
      split
      · rfl
      · rename_i hb
        exfalso
        apply hb
        simp only [Bool.and_eq_true, decide_eq_true_eq]
        exact ⟨⟨h1, h2⟩, h3⟩

/-- Witness for C8 at concrete inputs: a 403-answering HEAD oracle
yields a nil outcome with zero GET calls; a 500-answering HEAD oracle
yields one GET probe round. -/
theorem validate_forbidden_no_get_retry_witness :
    validate (fun _ => some ⟨403, none⟩) (fun _ => some ⟨200, none⟩) (fun _ => 0)
      true true [] ⟨"https", "example.com", "/a", "", "", ""⟩ =
      ⟨none, [("https", "example.com", "/a")], 1, 0⟩ ∧
    validate (fun _ => some ⟨500, none⟩) (fun _ => some ⟨200, none⟩) (fun _ => 0)
      true true [] ⟨"https", "example.com", "/a", "", "", ""⟩ =
      ⟨none, [("https", "example.com", "/a")], 1, 1⟩ := by
  constructor
  · rw [(validate_forbidden_no_get_retry (fun _ => some ⟨403, none⟩)
      (fun _ => some ⟨200, none⟩) (fun _ => 0) true []
      ⟨"https", "example.com", "/a", "", "", ""⟩ ⟨403, none⟩
      (by decide) (by simp) rfl).1 (Or.inl rfl)]
    rfl
  · rw [((validate_forbidden_no_get_retry (fun _ => some ⟨500, none⟩)
      (fun _ => some ⟨200, none⟩) (fun _ => 0) true []
      ⟨"https", "example.com", "/a", "", "", ""⟩ ⟨500, none⟩
      (by decide) (by simp) rfl).2 (by decide) (by decide) (by decide)).1]
    rfl

end Docforge

namespace Docforge

/-- Claim C9: for a URL whose hostname is `localhost`, `127.0.0.1`,
`1.2.3.4` or contains the marker `foo.bar`, `Validate` returns success
at once — no HEAD and no GET call is issued and the validated set is
untouched. -/
theorem validate_sample_host_no_network (headRespond getRespond : ℕ → Option HttpResponse)
    (rand : ℕ → ℕ) (headReqOk getReqOk : Bool) (validated : List LinkKey) (u : URL)
    (h : hostnameOf u.host = "localhost" ∨ hostnameOf u.host = "127.0.0.1" ∨
      hostnameOf u.host = "1.2.3.4" ∨ containsSub (hostnameOf u.host) "foo.bar" = true) :
    validate headRespond getRespond rand headReqOk getReqOk validated u =
      ⟨none, validated, 0, 0⟩ := by
  have hs : sampleHost (hostnameOf u.host) = true := by
    rcases h with h | h | h | h <;> simp [sampleHost, h]
  simp [validate, hs]

/-- Witness for C9: probing `http://localhost/x` with a live oracle
issues no call at all. -/
theorem validate_sample_host_no_network_witness :
    validate (fun _ => some ⟨200, none⟩) (fun _ => some ⟨200, none⟩) (fun _ => 0)
      true true [] ⟨"http", "localhost", "/x", "", "", ""⟩ = ⟨none, [], 0, 0⟩ :=
  validate_sample_host_no_network _ _ _ _ _ _ _ (Or.inl rfl)

/-- Claim C10: a task value that is not a `GitHubTask` makes
`GitHubWorker.Work` return nil with no fetch and no filesystem effect —
silently skipped; by contrast, a genuine `GitHubTask` whose fetch fails
is reported as an error. -/
theorem work_skips_non_github_task :
    (∀ (fetch : String → String → String → FetchOutcome) (dirExists : String → Bool)
      (mkdirFails writeFails : String → Option String),
      work fetch dirExists mkdirFails writeFails .other = (none, [])) ∧
    (∀ (fetch : String → String → String → FetchOutcome) (dirExists : String → Bool)
      (mkdirFails writeFails : String → Option String) (t : GitHubTask) (msg : String),
      fetch t.owner t.repository t.entrySHA = .transportErr msg →
      work fetch dirExists mkdirFails writeFails (.github t) =
        (some ⟨msg⟩, [FsEffect.fetchedBlob t.owner t.repository t.entrySHA])) := by
  constructor
  · intro fetch dirExists mkdirFails writeFails
    rfl
  · intro fetch dirExists mkdirFails writeFails t msg h
    simp [work, createBlobFromTask, h]

end Docforge

namespace Docforge

/-- Commuting the name-cleaning map with the contributor filter. -/
theorem gitContributors_map (log : List GitLogEntry) (A : String) :
    ((log.map cleanEntry).filter fun e => e.email ≠ A).map
      (fun e => (⟨e.name, e.email⟩ : GitUser)) =
    (log.filter fun e => e.email ≠ A).map fun e => ⟨cleanName e.name, e.email⟩ := by
  induction log with
  | nil => rfl
  | cons a t ih =>
    cases hd : decide (a.email ≠ A) with
    | false =>
      have hd2 : decide ((cleanEntry a).email ≠ A) = false := hd
      simp only [List.map_cons, List.filter_cons, hd, hd2, Bool.false_eq_true, if_false, ih]
    | true =>
      have hd2 : decide ((cleanEntry a).email ≠ A) = true := hd
      simp only [List.map_cons, List.filter_cons, hd, hd2, if_true, ih]
      rfl

/-- Counterexample to C7 as stated: in `cexGitLog` the non-author email
`b@x` appears on two records and both make it into the contributors list
— there is no deduplication. -/
theorem readGitInfo_repeated_contributor_cex :
    (readGitInfo cexGitLog).map GitInfo.contributors =
      some [⟨"Bob", "b@x"⟩, ⟨"Bob", "b@x"⟩] := rfl

/-- Claim C7 (amended): for a non-empty log (newest first) `ReadGitInfo`
reports the earliest record's cleaned author and its date as publish
date, the latest record's date as last-modified, and as contributors
*every* record with an email different from the author's, duplicates
preserved. -/
theorem readGitInfo_original_author (log : List GitLogEntry) (h : log ≠ []) :
    readGitInfo log = some
      ⟨(log.getLastD emptyLogEntry).date, (log.headD emptyLogEntry).date,
       ⟨cleanName (log.getLastD emptyLogEntry).name, (log.getLastD emptyLogEntry).email⟩,
       (log.filter fun e => e.email ≠ (log.getLastD emptyLogEntry).email).map
         fun e => ⟨cleanName e.name, e.email⟩⟩ := by
  have h0 : cleanEntry emptyLogEntry = emptyLogEntry := rfl
  have hlast := getLastD_map_cleanEntry log emptyLogEntry
  rw [h0] at hlast
  have hhead := headD_map_cleanEntry log emptyLogEntry
  rw [h0] at hhead
  have hne : log.isEmpty = false := by
    cases log with
    | nil => exact absurd rfl h
    | cons a t => rfl
  simp only [readGitInfo, hne, Bool.false_eq_true, if_false]
  rw [hlast, hhead, gitContributors_map log (cleanEntry (log.getLastD emptyLogEntry)).email]
  rfl

/-- Witness for C7 (amended) at the concrete log `cexGitLog`. -/
theorem readGitInfo_original_author_witness :
    readGitInfo cexGitLog =
      some ⟨"d3", "d1", ⟨"Al", "a@x"⟩, [⟨"Bob", "b@x"⟩, ⟨"Bob", "b@x"⟩]⟩ := by
  rw [readGitInfo_original_author cexGitLog (by decide)]
  rfl

end Docforge
